import Mathlib

/-!
# pbwtSample.c: sample records, sub-sampling of a PBWT and the selection builders

A shallow embedding of `src/pbwtSample.c`.  C arrays are lists, pointers that may be
null are `Option`s, `die` is the error side of `Except`, and the process-wide globals
(`sampleDict`, `populationDict`, `samples`) are the fields of an explicit store that is
passed in and returned.  Reads outside an array are undefined in C; here an unchecked
read (`arr`) outside the list yields `0` and an unchecked write outside it is dropped,
and the theorems state the bounds under which the C code stays inside its arrays.
-/

namespace Pbwt

/-! ## The array package -/

/-- Modelled from the spec: the extending access `uArray` behind the macros
`array(ar,i,type)` and `arrayp(ar,i,type)` of the repository's array package, which is not
under src/.  The record store is "an append-only array of per-individual records keyed by
registry id": touching index `i` at or beyond the current length grows the array to
length `i + 1`, the new slots zero-filled; an index inside the array changes nothing. -/
def uArray {α : Type} (zero : α) (ar : List α) (i : Nat) : List α :=
  if i < ar.length then ar else ar ++ List.replicate (i + 1 - ar.length) zero

/-- The assignment `array(ar,i,type) = v`: extend to cover `i`, then store. -/
def arraySet {α : Type} (zero : α) (ar : List α) (i : Nat) (v : α) : List α :=
  (uArray zero ar i).set i v

/-- The unchecked read `arr(ar,i,int)`. -/
def arr (ar : List Nat) (i : Nat) : Nat := ar.getD i 0

/-! ## The identity registry -/

/-- Modelled from the spec: the dictionary type `DICT` of the repository's dict package,
which is not under src/.  The registry "maps a name string to a unique, stable,
monotonically-assigned non-negative integer id", "registry ids start at 0" and
"id→name is invertible": the names in order of first insertion, the id of a name being
its position. -/
structure DICT where
  names : List String
deriving DecidableEq

/-- Modelled from the spec: `dictCreate` of the dict package (not under src/), an empty
registry. -/
def dictCreate : DICT := ⟨[]⟩

/-- Modelled from the spec: `dictFind` of the dict package (not under src/), the id of a
name that is registered. -/
def dictFind (d : DICT) (s : String) : Option Nat :=
  if s ∈ d.names then some (d.names.indexOf s) else none

/-- Modelled from the spec: `dictAdd (dict, s, &k)` of the dict package (not under src/).
"Repeat insertion of the same name returns the same id"; a new name takes the next id.
The triple is (the C return value: was the name new, the id stored through the pointer,
the dictionary afterwards). -/
def dictAdd (d : DICT) (s : String) : Bool × Nat × DICT :=
  match dictFind d s with
  | some i => (false, i, d)
  | none => (true, d.names.length, ⟨d.names ++ [s]⟩)

/-- Modelled from the spec: `dictName` of the dict package (not under src/), the reverse
lookup; an id never registered has no name. -/
def dictName (d : DICT) (i : Nat) : Option String := d.names[i]?

/-! ## The sample record store -/

/-- The record type `Sample` (declared in pbwt.h), with the fields this file uses. -/
structure Sample where
  nameD : Nat
  father : Nat
  mother : Nat
  family : Nat
  popD : Nat
  isMale : Bool
  isFemale : Bool
deriving DecidableEq

/-- A zero-filled record, as a freshly extended array slot holds. -/
def Sample.zero : Sample := ⟨0, 0, 0, 0, 0, false, false⟩

/-- The three file-scope globals of pbwtSample.c. -/
structure SampleStore where
  sampleDict : DICT
  populationDict : DICT
  samples : List Sample
deriving DecidableEq

/-- The ways this file calls `die`, and the one error the cursor contract names: "Advancing
past the last site is an error". -/
inductive Die where
  | sampleIndexOutOfRange
  | subSampleWithoutValidPbwt
  | badStart
  | selectSamplesWithoutSampleNames
  | advancePastLastSite
deriving DecidableEq

instance {ε α : Type} [DecidableEq ε] [DecidableEq α] : DecidableEq (Except ε α) :=
  fun a b =>
    match a, b with
    | .ok x, .ok y =>
        if h : x = y then isTrue (by rw [h]) else isFalse (fun e => h (by cases e; rfl))
    | .error x, .error y =>
        if h : x = y then isTrue (by rw [h]) else isFalse (fun e => h (by cases e; rfl))
    | .ok _, .error _ => isFalse (fun e => by cases e)
    | .error _, .ok _ => isFalse (fun e => by cases e)

/-- The update `arrayp(samples, k, Sample)->field = v`: extend the array to cover `k`, then
change that record. -/
def samplesUpdate (samples : List Sample) (k : Nat) (f : Sample → Sample) : List Sample :=
  let ar := uArray Sample.zero samples k
  ar.set k (f (ar.getD k Sample.zero))

/-- The function `sampleInit`. -/
def sampleInit : SampleStore :=
  { sampleDict := dictCreate
    populationDict := dictCreate
    samples := samplesUpdate [] 0 (fun s => { s with nameD := 0 }) }

/-- The comparison `strcasecmp` of the C library, as far as the code uses it: `0` exactly
when the two strings agree up to the case of ASCII letters. -/
def strcasecmp (s t : String) : Int :=
  if s.data.map Char.toLower = t.data.map Char.toLower then 0 else 1

/-- Line 42 of `sampleAdd`: register the name; a new name gets its record's `nameD`. -/
def sampleAddName (st : SampleStore) (name : String) : Nat × SampleStore :=
  let r := dictAdd st.sampleDict name
  if r.1 then
    (r.2.1, { st with sampleDict := r.2.2
                      samples := samplesUpdate st.samples r.2.1
                        (fun s => { s with nameD := r.2.1 }) })
  else (r.2.1, { st with sampleDict := r.2.2 })

/-- Line 43 of `sampleAdd`. -/
def sampleAddFather (st : SampleStore) (k : Nat) : Option String → SampleStore
  | none => st
  | some father =>
      let r := dictAdd st.sampleDict father
      { st with sampleDict := r.2.2
                samples := samplesUpdate st.samples k (fun s => { s with father := r.2.1 }) }

/-- Line 44 of `sampleAdd`. -/
def sampleAddMother (st : SampleStore) (k : Nat) : Option String → SampleStore
  | none => st
  | some mother =>
      let r := dictAdd st.sampleDict mother
      { st with sampleDict := r.2.2
                samples := samplesUpdate st.samples k (fun s => { s with mother := r.2.1 }) }

/-- Line 45 of `sampleAdd`. -/
def sampleAddFamily (st : SampleStore) (k : Nat) : Option String → SampleStore
  | none => st
  | some family =>
      let r := dictAdd st.populationDict family
      { st with populationDict := r.2.2
                samples := samplesUpdate st.samples k (fun s => { s with family := r.2.1 }) }

/-- Line 46 of `sampleAdd`. -/
def sampleAddPop (st : SampleStore) (k : Nat) : Option String → SampleStore
  | none => st
  | some pop =>
      let r := dictAdd st.populationDict pop
      { st with populationDict := r.2.2
                samples := samplesUpdate st.samples k (fun s => { s with popD := r.2.1 }) }

/-- Lines 47 to 50 of `sampleAdd`. -/
def sampleAddSex (st : SampleStore) (k : Nat) : Option String → SampleStore
  | none => st
  | some sex =>
      let st1 : SampleStore :=
        if strcasecmp sex "M" = 0 ∨ strcasecmp sex "male" = 0 then
          { st with samples := samplesUpdate st.samples k (fun s => { s with isMale := true }) }
        else st
      if strcasecmp sex "F" = 0 ∨ strcasecmp sex "female" = 0 then
        { st1 with samples := samplesUpdate st1.samples k (fun s => { s with isFemale := true }) }
      else st1

/-- The function `sampleAdd`: the returned id and the globals afterwards. -/
def sampleAdd (st : SampleStore) (name : String)
    (father mother family pop sex : Option String) : Nat × SampleStore :=
  let r := sampleAddName st name
  let k := r.1
  (k, sampleAddSex (sampleAddPop (sampleAddFamily (sampleAddMother
        (sampleAddFather r.2 k father) k mother) k family) k pop) k sex)

/-- The function `getSample`. -/
def getSample (st : SampleStore) (i : Nat) : Except Die Sample :=
  if i ≥ st.samples.length then .error Die.sampleIndexOutOfRange
  else .ok (st.samples.getD i Sample.zero)

/-- The function `sampleName`. -/
def sampleName (st : SampleStore) (s : Sample) : Option String := dictName st.sampleDict s.nameD

/-- The function `popName`. -/
def popName (st : SampleStore) (s : Sample) : Option String := dictName st.populationDict s.popD

/-- The function `familyName`. -/
def familyName (st : SampleStore) (s : Sample) : Option String :=
  dictName st.populationDict s.family

/-- One call of `sampleAdd` with its six arguments. -/
structure AddCall where
  name : String
  father : Option String
  mother : Option String
  family : Option String
  pop : Option String
  sex : Option String
deriving DecidableEq

/-- Run a sequence of `sampleAdd` calls; the ids returned, in call order, and the store. -/
def runCalls (st : SampleStore) : List AddCall → List Nat × SampleStore
  | [] => ([], st)
  | c :: cs =>
      let r := sampleAdd st c.name c.father c.mother c.family c.pop c.sex
      let rest := runCalls r.2 cs
      (r.1 :: rest.1, rest.2)

/-! ## The positional matrix and its cursor -/

/-- The site record `Site` (declared in pbwt.h): position and variation id.  The sites
array is only moved as a whole by this file. -/
structure Site where
  x : Nat
  varD : Nat
deriving DecidableEq

/-- The matrix type `PBWT` (declared in pbwt.h), with the fields this file touches.  The
packed storage `yz` is kept decoded: one entry per site, the allele vector of that site
in rank order (the encoding of a site's vector is outside this unit).  A field that is a
null pointer in C is `none`. -/
structure PBWT where
  N : Nat
  M : Nat
  chrom : Option String
  sites : Option (List Site)
  samples : Option (List Nat)
  yz : Option (List (List Nat))
  aFstart : Option (List Nat)
  aFend : Option (List Nat)
  zMissing : Option (List Nat)
  zDosage : Option (List Nat)
  isX : Bool
  isY : Bool
deriving DecidableEq

/-- Modelled from the spec: `pbwtCreate (M, N)` of pbwtCore.c, which is not under src/: a
matrix of `M` columns and `N` sites with empty storage and nothing else set. -/
def pbwtCreate (M N : Nat) : PBWT :=
  { N := N, M := M, chrom := none, sites := none, samples := none, yz := some [],
    aFstart := none, aFend := none, zMissing := none, zDosage := none,
    isX := false, isY := false }

/-- Modelled from the spec: the cursor type `PbwtCursor` of pbwt.h, which is not under
src/.  A cursor "tracks: current site index, an M-length permutation array" `a` (`a[rank]`
is a column) "and an M-length allele buffer for the current site, indexed by sort rank"
`y`; `z` is the storage of the matrix it is bound to and `n` the current site index. -/
structure PbwtCursor where
  M : Nat
  a : List Nat
  y : List Nat
  z : List (List Nat)
  n : Nat
deriving DecidableEq

/-- Modelled from the spec: `pbwtCursorCreate (p, TRUE, TRUE)` of pbwtCore.c, which is not
under src/: "initializes at site 0 with the identity or stored starting permutation"; the
allele buffer holds site 0 when the storage has one, and zeros on a matrix still to be
written. -/
def pbwtCursorCreate (p : PBWT) : PbwtCursor :=
  let z := p.yz.getD []
  { M := p.M
    a := p.aFstart.getD (List.range p.M)
    y := z.getD 0 (List.replicate p.M 0)
    z := z
    n := 0 }

/-- Modelled from the spec: the loop of `pbwtCursorForwardsA` of pbwtCore.c, which is not
under src/: "columns are partitioned by allele value, each partition preserving its prior
relative order (a stable two-way bucket sort), producing the new rank order": the columns
whose allele is 0, then the others. -/
def partitionByAllele (a y : List Nat) : List Nat :=
  let ay := a.zip y
  (ay.filter (fun c => c.2 == 0)).map Prod.fst ++
    (ay.filter (fun c => !(c.2 == 0))).map Prod.fst

/-- Modelled from the spec: the permutation update `pbwtCursorForwardsA` of pbwtCore.c,
which is not under src/, on the cursor. -/
def pbwtCursorForwardsA (u : PbwtCursor) : PbwtCursor :=
  { u with a := partitionByAllele u.a u.y }

/-- Modelled from the spec: `pbwtCursorWriteForwards` (encodeAdvance) of pbwtCore.c, which is
not under src/: "appends an encoded representation of this site to the bound matrix's
storage, then updates the permutation for the next site". -/
def pbwtCursorWriteForwards (u : PbwtCursor) : PbwtCursor :=
  pbwtCursorForwardsA { u with z := u.z ++ [u.y], n := u.n + 1 }

/-- Modelled from the spec: the effect of `pbwtCursorForwardsRead` (decodeAdvance) on a cursor
that stands at a site: it updates "the permutation to reflect the sort order after
incorporating this site's alleles", moves to the next site and, when one is stored, decodes
"the next site's data from the bound matrix's storage, populating the allele buffer".  The
spec names no content for the buffer once the last site has been left; the field keeps its
value here, and every read of it in this file is at a site (`n < z.length`). -/
def forwardsReadStep (u : PbwtCursor) : PbwtCursor :=
  let v := pbwtCursorForwardsA u
  { v with y := v.z.getD (v.n + 1) v.y, n := v.n + 1 }

/-- Modelled from the spec: `pbwtCursorForwardsRead` (decodeAdvance) of pbwtCore.c, which is
not under src/.  "Advancing past the last site is an error": a cursor that stands at one of
the stored sites (`n < z.length`) is advanced, the last site included, since the site loop
of the spec's algorithm makes this call once for each of the `N` sites; a cursor that
already stands beyond the last site cannot be advanced, and the call fails. -/
def pbwtCursorForwardsRead (u : PbwtCursor) : Except Die PbwtCursor :=
  if u.n < u.z.length then .ok (forwardsReadStep u) else .error Die.advancePastLastSite

/-- Modelled from the spec: `pbwtCursorToAFend` (finalizePermutation) of pbwtCore.c, which is
not under src/: "records the cursor's final permutation as the matrix's terminal sort
order".  The storage the cursor wrote is the matrix's own `yz`. -/
def pbwtCursorToAFend (u : PbwtCursor) (p : PBWT) : PBWT :=
  { p with aFend := some u.a, yz := some u.z }

/-! ## Sub-sampling -/

/-- The local variables of `pbwtSubSample` that live across the site loop. -/
structure SubSampleState where
  uOld : PbwtCursor
  uNew : PbwtCursor
  x : List Nat
  ainv : List Nat
deriving DecidableEq

/-- Line 105: `for (j = 0 ; j < pOld->M ; ++j) ainv[uOld->a[j]] = j`. -/
def fillAinv (Mold : Nat) (a : List Nat) (ainv : List Nat) : List Nat :=
  (List.range Mold).foldl (fun ai j => ai.set (arr a j) j) ainv

/-- Line 106: `for (j = 0 ; j < pNew->M ; ++j) x[j] = uOld->y[ainv[arr(select,j,int)]]`. -/
def fillX (Mnew : Nat) (y ainv select : List Nat) (x : List Nat) : List Nat :=
  (List.range Mnew).foldl (fun xs j => xs.set j (arr y (arr ainv (arr select j)))) x

/-- Line 107: `for (j = 0 ; j < pNew->M ; ++j) uNew->y[j] = x[uNew->a[j]]`. -/
def fillY (Mnew : Nat) (x a : List Nat) (y : List Nat) : List Nat :=
  (List.range Mnew).foldl (fun ys j => ys.set j (arr x (arr a j))) y

/-- One pass of the site loop, lines 105 to 109.  The pass fails when the read of line 109
fails. -/
def subSampleStep (Mold Mnew : Nat) (select : List Nat) (s : SubSampleState) :
    Except Die SubSampleState :=
  let ainv := fillAinv Mold s.uOld.a s.ainv
  let x := fillX Mnew s.uOld.y ainv select s.x
  let uNew := { s.uNew with y := fillY Mnew x s.uNew.a s.uNew.y }
  let uNew := pbwtCursorWriteForwards uNew
  match pbwtCursorForwardsRead s.uOld with
  | .error e => .error e
  | .ok uOld => .ok { uOld := uOld, uNew := uNew, x := x, ainv := ainv }

/-- The site loop run for `n` passes; it fails at the first pass that fails. -/
def subSampleLoop (Mold Mnew : Nat) (select : List Nat) :
    Nat → SubSampleState → Except Die SubSampleState
  | 0, s => .ok s
  | n + 1, s =>
      match subSampleStep Mold Mnew select s with
      | .error e => .error e
      | .ok t => subSampleLoop Mold Mnew select n t

/-- The state one pass of the site loop leaves when its read does not fail (lines 105 to
109 with the cursor of the old matrix at a site). -/
def subSamplePass (Mold Mnew : Nat) (select : List Nat) (s : SubSampleState) :
    SubSampleState :=
  let ainv := fillAinv Mold s.uOld.a s.ainv
  let x := fillX Mnew s.uOld.y ainv select s.x
  let uNew := { s.uNew with y := fillY Mnew x s.uNew.a s.uNew.y }
  { uOld := forwardsReadStep s.uOld
    uNew := pbwtCursorWriteForwards uNew
    x := x
    ainv := ainv }

/-- The state `n` passes of the site loop leave when no read fails. -/
def subSamplePasses (Mold Mnew : Nat) (select : List Nat) :
    Nat → SubSampleState → SubSampleState
  | 0, s => s
  | n + 1, s => subSamplePasses Mold Mnew select n (subSamplePass Mold Mnew select s)

/-- The locals as set up by lines 97 to 102: the two work buffers (uninitialised memory in
C, zeros here; each is written before it is read) and the two cursors. -/
def subSampleInit (pOld pNew : PBWT) : SubSampleState :=
  { uOld := pbwtCursorCreate pOld
    uNew := pbwtCursorCreate pNew
    x := List.replicate pNew.M 0
    ainv := List.replicate pOld.M 0 }

/-- Lines 115 to 119: the sample of each new column. -/
def subSampleSamples (pOld : PBWT) (Mnew : Nat) (select : List Nat) : Option (List Nat) :=
  match pOld.samples with
  | none => none
  | some os =>
      some ((List.range Mnew).foldl (fun ns j => arraySet 0 ns j (arr os (arr select j))) [])

/-- The body of `pbwtSubSample` up to the call of `pbwtDestroy (pOld)`: the new matrix,
and the old one as it is handed to `pbwtDestroy`. -/
def pbwtSubSampleCore (pOld : Option PBWT) (select : List Nat) : Except Die (PBWT × PBWT) :=
  match pOld with
  | none => .error Die.subSampleWithoutValidPbwt
  | some pOld =>
      match pOld.yz with
      | none => .error Die.subSampleWithoutValidPbwt
      | some _ =>
          let pNew := pbwtCreate select.length pOld.N
          match subSampleLoop pOld.M pNew.M select pOld.N (subSampleInit pOld pNew) with
          | .error e => .error e
          | .ok s =>
              let pNew := pbwtCursorToAFend s.uNew pNew
              let pNew := { pNew with samples := subSampleSamples pOld pNew.M select }
              let pNew := { pNew with chrom := pOld.chrom }
              let pOld := { pOld with chrom := none }
              let pNew := { pNew with sites := pOld.sites }
              let pOld := { pOld with sites := none }
              let pNew := { pNew with isX := pOld.isX, isY := pOld.isY }
              .ok (pNew, pOld)

/-- The function `pbwtSubSample`. -/
def pbwtSubSample (pOld : Option PBWT) (select : List Nat) : Except Die PBWT :=
  (pbwtSubSampleCore pOld select).map Prod.fst

/-- The state of the locals at the top of pass `i` of the site loop of
`pbwtSubSample (pOld, select)` (for `i = pOld->N`: after the loop), no read of an earlier
pass having failed. -/
def subSampleAt (pOld : PBWT) (select : List Nat) (i : Nat) : SubSampleState :=
  subSamplePasses pOld.M select.length select i
    (subSampleInit pOld (pbwtCreate select.length pOld.N))

/-! ## Reading a matrix -/

/-- The cursor of a matrix after `i` forward reads: it holds site `i`. -/
def cursorAt (p : PBWT) : Nat → PbwtCursor
  | 0 => pbwtCursorCreate p
  | i + 1 => forwardsReadStep (cursorAt p i)

/-- The allele of column `c` at site `i`: the entry of the allele buffer at the rank the
column has in the permutation of that site. -/
def alleleAt (p : PBWT) (i c : Nat) : Option Nat :=
  if i < p.N ∧ c < p.M then
    let u := cursorAt p i
    u.y[u.a.indexOf c]?
  else none

/-- A valid, fully built matrix: storage present with one vector of length `M` per site,
a stored starting permutation (when there is one) that is a permutation of the columns,
and a column mapping (when there is one) with one entry per column. -/
def PBWT.valid (p : PBWT) : Prop :=
  (∃ z ∈ p.yz, z.length = p.N ∧ ∀ v ∈ z, v.length = p.M) ∧
  (∀ a ∈ p.aFstart, a.Perm (List.range p.M)) ∧
  (∀ m ∈ p.samples, m.length = p.M)

instance (p : PBWT) : Decidable p.valid := by
  unfold PBWT.valid; infer_instance

/-- The engine's precondition on the selection: every entry is a column of the source. -/
def selectInRange (select : List Nat) (M : Nat) : Prop := ∀ v ∈ select, v < M

instance (select : List Nat) (M : Nat) : Decidable (selectInRange select M) := by
  unfold selectInRange; infer_instance

/-- A bijection on `[0, M)` given as the list of its values: `M` entries, none twice,
each below `M`. -/
def isBijection (a : List Nat) (M : Nat) : Prop :=
  a.length = M ∧ a.Nodup ∧ ∀ c ∈ a, c < M

instance (a : List Nat) (M : Nat) : Decidable (isBijection a M) := by
  unfold isBijection; infer_instance

/-! ## Building a matrix from raw alleles -/

/-- The raw alleles of the selected columns: row `i` holds, for each new column `j`, the
allele of source column `select[j]` at site `i` (`0` where the source has none). -/
def selectedRows (pOld : PBWT) (select : List Nat) : List (List Nat) :=
  (List.range pOld.N).map (fun i => select.map (fun c => (alleleAt pOld i c).getD 0))

/-- Encode one site from scratch: put the raw row `x` (indexed by column) into rank order
of the current permutation, then encodeAdvance. -/
def freshStep (u : PbwtCursor) (x : List Nat) : PbwtCursor :=
  pbwtCursorWriteForwards { u with y := u.a.map (fun c => arr x c) }

/-- The cursor of a fresh `M`-column matrix, started at the identity permutation, after
the given raw rows have been encoded site by site. -/
def freshCursor (M : Nat) (rows : List (List Nat)) : PbwtCursor :=
  rows.foldl freshStep (pbwtCursorCreate (pbwtCreate M rows.length))

/-! ## The selection builders -/

/-- The C type `int` (32 bits, two's complement): the value an `int` takes when the exact
result `z` does not fit. -/
def wrapInt (z : Int) : Int := (z + 2147483648) % 4294967296 - 2147483648

/-- The sum of two `int`s in `int` arithmetic. -/
def intAdd (a b : Int) : Int := wrapInt (a + b)

/-- Lines 135 to 137: `for (i = 0 ; i < Mnew ; ++i) array(select, i, int) = start + i`. -/
def intervalSelect (start Mnew : Int) : List Int :=
  (List.range Mnew.toNat).foldl (fun sel i => arraySet 0 sel i (intAdd start i)) []

/-- Lines 131 to 137 of `pbwtSubSampleInterval`: the guard, and the selection that is handed
to `pbwtSubSample`. -/
def intervalSelection (start Mnew Mold : Int) : Except Die (List Int) :=
  if start < 0 ∨ Mnew ≤ 0 ∨ intAdd start Mnew > Mold then .error Die.badStart
  else .ok (intervalSelect start Mnew)

/-- The index the engine reads with when an entry of `select` is the int `v`, in a matrix of
`M` columns: `v` itself when it is not negative; a negative `v` is outside every array, and
is kept outside as `M + |v|`, which is no column. -/
def intIndex (M : Nat) (v : Int) : Nat :=
  if v < 0 then M + v.natAbs else v.toNat

/-- The function `pbwtSubSampleInterval`.  The engine indexes with the entries of `select`;
an entry that is negative is outside every array. -/
def pbwtSubSampleInterval (pOld : PBWT) (start Mnew : Int) : Except Die PBWT :=
  match intervalSelection start Mnew pOld.M with
  | .error e => .error e
  | .ok select => pbwtSubSample (some pOld) (select.map (intIndex pOld.M))

/-- The arrays `oldStart`, `oldCount` and `select` of `pbwtSelectSamples`. -/
structure SelectState where
  oldStart : List Nat
  oldCount : List Nat
  select : List Nat
deriving DecidableEq

/-- Lines 156 to 158: one pass of the loop over the old columns. -/
def countStep (os : List Nat) (s : SelectState) (i : Nat) : SelectState :=
  let id := arr os i
  let oldCount := uArray 0 s.oldCount id
  let oldStart := if arr oldCount id = 0 then arraySet 0 s.oldStart id i else s.oldStart
  { s with oldStart := oldStart, oldCount := oldCount.set id (arr oldCount id + 1) }

/-- Line 164, run `c` times: append the cursor of identity `id` and advance it. -/
def selectInner (id : Nat) : Nat → SelectState → SelectState
  | 0, s => s
  | c + 1, s =>
      selectInner id c
        { s with select := arraySet 0 s.select s.select.length (arr s.oldStart id)
                 oldStart := s.oldStart.set id (arr s.oldStart id + 1) }

/-- Lines 163 and 164: one requested identity. -/
def selectStep (s : SelectState) (id : Nat) : SelectState :=
  let oldCount := uArray 0 s.oldCount id
  selectInner id (arr oldCount id) { s with oldCount := oldCount }

/-- Lines 153 to 164 of `pbwtSelectSamples`: the selection built from the column mapping
`os` of a matrix of `Mold` columns and the requested identities. -/
def identitySelection (Mold : Nat) (os newSamples : List Nat) : List Nat :=
  let counted := (List.range Mold).foldl (countStep os) ⟨[], [], []⟩
  (newSamples.foldl selectStep counted).select

/-- The function `pbwtSelectSamples`; `newSamples` is what `pbwtReadSamplesFile (fp)`
returned. -/
def pbwtSelectSamples (pOld : Option PBWT) (newSamples : List Nat) : Except Die PBWT :=
  match pOld with
  | none => .error Die.selectSamplesWithoutSampleNames
  | some p =>
      match p.samples with
      | none => .error Die.selectSamplesWithoutSampleNames
      | some os =>
          if newSamples.length = 0 then .ok p
          else pbwtSubSample (some p) (identitySelection p.M os newSamples)

/-- The least source column mapped to identity `id`. -/
def firstColumn (os : List Nat) (id : Nat) : Nat := os.indexOf id

/-- The number of source columns mapped to identity `id`. -/
def columnCount (os : List Nat) (id : Nat) : Nat := os.count id

/-- The selection as the contract describes it: for each request, in order, `count`
consecutive columns starting at `first + count * (earlier requests of the same id)`. -/
def identitySelectionSpec (os req : List Nat) : List Nat :=
  ((List.range req.length).map (fun i =>
      let id := arr req i
      List.range' (firstColumn os id + columnCount os id * (req.take i).count id)
        (columnCount os id))).flatten

/-! ## Sex and ploidy of a column -/

/-- The function `sample`: the record of the sample that column `i` of `p` belongs to.
The column mapping is read unchecked. -/
def sample (st : SampleStore) (p : PBWT) (i : Nat) : Except Die Sample :=
  let k := arr (p.samples.getD []) i
  if k ≥ st.samples.length then .error Die.sampleIndexOutOfRange
  else .ok (st.samples.getD k Sample.zero)

/-- The function `isMale`. -/
def isMale (s : Sample) : Bool := s.isMale

/-- The function `sampleIsMale`; the record is read unchecked. -/
def sampleIsMale (st : SampleStore) (i : Nat) : Bool := isMale (st.samples.getD i Sample.zero)

/-- The function `isFemale`. -/
def isFemale (s : Sample) : Bool := s.isFemale

/-- The function `sampleIsFemale`; the record is read unchecked. -/
def sampleIsFemale (st : SampleStore) (i : Nat) : Bool :=
  isFemale (st.samples.getD i Sample.zero)

/-- The function `samplePloidy`. -/
def samplePloidy (st : SampleStore) (p : PBWT) (i : Nat) : Except Die Nat :=
  match p.samples with
  | none => .ok 2
  | some _ =>
      match sample st p i with
      | .error e => .error e
      | .ok s =>
          if p.isX then .ok (if s.isMale then 1 else 2)
          else if p.isY then .ok (if s.isMale then 1 else 0)
          else .ok 2

/-! ## Notions used in the statements -/

/-- The ploidy rule in the words of the contract: 2 without an identity mapping; otherwise
"2 unless a sex-linked flag is set and the mapped sample is male (ploidy 1) or, for one
flag" (the Y flag), "female (ploidy 0, meaning absent)". -/
def ploidyRuleSpec (hasMapping isX isY male female : Bool) : Nat :=
  if !hasMapping then 2
  else if (isX || isY) && male then 1
  else if isY && female then 0
  else 2

/-- The sex string is `M` or `male` up to the case of ASCII letters: lowering its
letters gives `m` or `male`. -/
def isMaleToken (s : String) : Prop :=
  s.data.map Char.toLower = ['m'] ∨ s.data.map Char.toLower = ['m', 'a', 'l', 'e']

instance (s : String) : Decidable (isMaleToken s) := by
  unfold isMaleToken; infer_instance

/-- The sex string is `F` or `female` up to the case of ASCII letters: lowering its
letters gives `f` or `female`. -/
def isFemaleToken (s : String) : Prop :=
  s.data.map Char.toLower = ['f'] ∨ s.data.map Char.toLower = ['f', 'e', 'm', 'a', 'l', 'e']

instance (s : String) : Decidable (isFemaleToken s) := by
  unfold isFemaleToken; infer_instance

/-- A next site remains to be read: the site after the one the cursor stands at is stored. -/
def nextSiteRemains (u : PbwtCursor) : Prop := u.n + 1 < u.z.length

instance (u : PbwtCursor) : Decidable (nextSiteRemains u) := by
  unfold nextSiteRemains; infer_instance

/-- The columns mapped to each identity form one contiguous run: the `count` columns
from the first column of the identity on all belong to it (and so are all of its
columns). -/
def contiguousRuns (os : List Nat) : Prop :=
  ∀ id ∈ os, ∀ k, k < columnCount os id → os[firstColumn os id + k]? = some id

instance (os : List Nat) : Decidable (contiguousRuns os) := by
  unfold contiguousRuns; infer_instance

/-- Column `c` precedes column `d` in the permutation `a`: its rank is the lower one. -/
def precedes (a : List Nat) (c d : Nat) : Prop := a.indexOf c < a.indexOf d

instance (a : List Nat) (c d : Nat) : Decidable (precedes a c d) := by
  unfold precedes; infer_instance

/-- A strictly increasing selection: every entry is below all later ones. -/
def strictlyIncreasing (select : List Nat) : Prop := select.Pairwise (fun c d => c < d)

instance (select : List Nat) : Decidable (strictlyIncreasing select) := by
  unfold strictlyIncreasing; infer_instance

/-! ## Example data -/

/-- A source of 3 columns and 2 sites with raw alleles (by column) `0 1 0` at site 0 and
`1 0 0` at site 1: column 1 sorts behind columns 0 and 2 after site 0, so site 1 is stored
in the rank order `0 2 1`.  Its columns belong to the samples 5, 6 and 7. -/
def exampleSource : PBWT :=
  { N := 2, M := 3, chrom := some "20", sites := some [⟨100, 0⟩, ⟨200, 1⟩],
    samples := some [5, 6, 7], yz := some [[0, 1, 0], [1, 0, 0]],
    aFstart := none, aFend := some [2, 1, 0], zMissing := none, zDosage := none,
    isX := false, isY := false }

/-- The example source with its site count raised to 3 while its storage still holds 2
sites: not a valid matrix. -/
def exampleShortStorage : PBWT := { exampleSource with N := 3 }

/-- A source of 4 columns and 1 site, two diploid samples: columns 0 and 1 belong to
sample 7, columns 2 and 3 to sample 9. -/
def exampleDiploid : PBWT :=
  { N := 1, M := 4, chrom := none, sites := none,
    samples := some [7, 7, 9, 9], yz := some [[0, 1, 1, 0]],
    aFstart := none, aFend := none, zMissing := none, zDosage := none,
    isX := false, isY := false }

/-- One call: `sampleAdd ("C", "F", 0, 0, 0, 0)`, a child `C` with father `F`. -/
def callsChild : List AddCall := [⟨"C", some "F", none, none, none, none⟩]

/-- The child with its father, then the father under his own name:
`sampleAdd ("C", "F", 0, 0, 0, 0)` and `sampleAdd ("F", 0, 0, 0, 0, 0)`. -/
def callsFatherNext : List AddCall :=
  [⟨"C", some "F", none, none, none, none⟩, ⟨"F", none, none, none, none, none⟩]

/-- The child with its father, another individual `B`, then the father with his own
father `G`. -/
def callsFatherLater : List AddCall :=
  [⟨"C", some "F", none, none, none, none⟩, ⟨"B", none, none, none, none, none⟩,
   ⟨"F", some "G", none, none, none, none⟩]

/-- A store with the one sample `A`, added without a sex: record 0 has neither sex flag. -/
def exampleStoreNoSex : SampleStore := (sampleAdd sampleInit "A" none none none none none).2

/-- A one-column matrix of the Y chromosome whose column belongs to sample 0. -/
def exampleY : PBWT :=
  { N := 1, M := 1, chrom := some "Y", sites := none,
    samples := some [0], yz := some [[1]],
    aFstart := none, aFend := none, zMissing := none, zDosage := none,
    isX := false, isY := true }

/-- A matrix with a column mapping and no storage (`yz` null): `pbwtSubSample` dies on it. -/
def exampleNoStorage : PBWT :=
  { N := 1, M := 1, chrom := none, sites := none,
    samples := some [3], yz := none,
    aFstart := none, aFend := none, zMissing := none, zDosage := none,
    isX := false, isY := false }

/-- A valid 3-column source in which sample 7 owns the columns 0 and 2, with a column of
sample 9 in between. -/
def exampleSplit : PBWT :=
  { N := 1, M := 3, chrom := none, sites := none,
    samples := some [7, 9, 7], yz := some [[0, 1, 1]],
    aFstart := none, aFend := none, zMissing := none, zDosage := none,
    isX := false, isY := false }

/-- A valid 2-column, 1-site source with a stored starting permutation that puts column 1
before column 0 (as a matrix cut out of a longer one has). -/
def exampleStarted : PBWT :=
  { N := 1, M := 2, chrom := none, sites := none,
    samples := none, yz := some [[0, 0]],
    aFstart := some [1, 0], aFend := some [1, 0], zMissing := none, zDosage := none,
    isX := false, isY := false }

/-! ## Proof-side notions -/

/-- The record at index `k` of the store, zero-filled when the array does not reach `k`
(what `arrayp(samples, k, Sample)` points at). -/
@[reducible]
def recordOr (st : SampleStore) (k : Nat) : Sample := st.samples.getD k Sample.zero

/-- What every line of `sampleAdd` leaves in place while it works on record `k`: the ids
already given out by the two dictionaries, the records present, and every record but `k`. -/
@[reducible]
def storeFrame (st st2 : SampleStore) (k : Nat) : Prop :=
  (∀ s i, dictFind st.sampleDict s = some i → dictFind st2.sampleDict s = some i) ∧
  (∀ s i, dictFind st.populationDict s = some i → dictFind st2.populationDict s = some i) ∧
  st.samples.length ≤ st2.samples.length ∧
  ∀ j, j ≠ k → recordOr st2 j = recordOr st j

/-- The invariant of a cursor over `M` columns: the permutation is one of the columns, and
the buffer has one entry per rank. -/
def cursorOK (u : PbwtCursor) (M : Nat) : Prop :=
  u.a.Perm (List.range M) ∧ u.y.length = M

/-! ## Lists as C arrays -/

theorem foldl_set_range_aux {α : Type} (f : Nat → α) (l : List α) :
    ∀ k, k ≤ l.length →
      (List.range k).foldl (fun acc j => acc.set j (f j)) l = (List.range k).map f ++ l.drop k := by
  intro k
  induction k with
  | zero => intro _; simp
  | succ k ih =>
    intro hk
    have hk1 : k < l.length := by omega
    rw [List.range_succ, List.foldl_append, ih (by omega)]
    simp only [List.foldl_cons, List.foldl_nil, List.map_append, List.map_cons, List.map_nil]
    rw [List.set_append_right _ _ (by simp)]
    simp only [List.length_map, List.length_range, Nat.sub_self]
    rw [List.drop_eq_getElem_cons hk1, List.set_cons_zero]
    simp

/-- Writing `f j` into slot `j` for every `j` below the length leaves the list of the `f j`. -/
theorem foldl_set_range {α : Type} (f : Nat → α) (l : List α) (n : Nat) (h : l.length = n) :
    (List.range n).foldl (fun acc j => acc.set j (f j)) l = (List.range n).map f := by
  rw [foldl_set_range_aux f l n (by omega)]
  simp [← h]

/-- Storing `f j` at `array(ar, j)` for `j = 0, 1, ..` from the empty array builds the list
of the `f j`. -/
theorem foldl_arraySet_range {α : Type} (zero : α) (f : Nat → α) (n : Nat) :
    (List.range n).foldl (fun acc j => arraySet zero acc j (f j)) [] = (List.range n).map f := by
  induction n with
  | zero => simp
  | succ n ih =>
    rw [List.range_succ, List.foldl_append, ih]
    simp only [List.foldl_cons, List.foldl_nil, List.map_append, List.map_cons, List.map_nil]
    simp [arraySet, uArray]

theorem map_range_getD {α : Type} (g : Nat → α) (l : List Nat) :
    (List.range l.length).map (fun j => g (l.getD j 0)) = l.map g := by
  apply List.ext_getElem
  · simp
  · intro i h1 h2
    simp only [List.length_map, List.length_range] at h1
    simp [List.getElem?_eq_getElem h1]

theorem arr_eq_getElem (l : List Nat) (i : Nat) (h : i < l.length) : arr l i = l[i] := by
  simp [arr, List.getElem?_eq_getElem h]

theorem arr_set_self (l : List Nat) (i v : Nat) (h : i < l.length) : arr (l.set i v) i = v := by
  simp [arr, List.getElem?_set_self h]

theorem arr_set_ne (l : List Nat) (i j v : Nat) (h : i ≠ j) : arr (l.set i v) j = arr l j := by
  simp [arr, List.getElem?_set_ne h]

/-! ## The inverse permutation of line 105 -/

theorem fillAinv_aux (a : List Nat) (M : Nat) (hlen : a.length = M) (hnd : a.Nodup)
    (hlt : ∀ c ∈ a, c < M) (ainv : List Nat) (hai : ainv.length = M) :
    ∀ k, k ≤ M →
      ((List.range k).foldl (fun ai j => ai.set (arr a j) j) ainv).length = M ∧
      ∀ j, j < k → arr ((List.range k).foldl (fun ai j => ai.set (arr a j) j) ainv) (arr a j) = j := by
  intro k
  induction k with
  | zero => intro _; simp [hai]
  | succ k ih =>
    intro hk
    obtain ⟨ihl, ihj⟩ := ih (by omega)
    rw [List.range_succ, List.foldl_append]
    simp only [List.foldl_cons, List.foldl_nil, List.length_set]
    refine ⟨ihl, ?_⟩
    intro j hj
    have hk1 : k < a.length := by omega
    have hak : arr a k < M := by
      rw [arr_eq_getElem a k hk1]; exact hlt _ (List.getElem_mem _)
    by_cases hjk : j = k
    · subst hjk
      exact arr_set_self _ _ _ (by omega)
    · have hj1 : j < a.length := by omega
      have hne : arr a k ≠ arr a j := by
        rw [arr_eq_getElem a k hk1, arr_eq_getElem a j hj1]
        intro he
        exact hjk ((hnd.getElem_inj_iff).1 he).symm
      rw [arr_set_ne _ _ _ _ hne]
      exact ihj j (by omega)

/-- After line 105, `ainv[c]` is the rank of column `c` in the permutation `a`. -/
theorem fillAinv_eq_indexOf (a : List Nat) (M : Nat) (hp : a.Perm (List.range M))
    (ainv : List Nat) (hai : ainv.length = M) (c : Nat) (hc : c < M) :
    arr (fillAinv M a ainv) c = a.indexOf c := by
  have hlen : a.length = M := by simpa using hp.length_eq
  have hnd : a.Nodup := (hp.nodup_iff).2 (List.nodup_range M)
  have hlt : ∀ c ∈ a, c < M := fun c h => List.mem_range.1 ((hp.mem_iff).1 h)
  have hmem : c ∈ a := (hp.mem_iff).2 (List.mem_range.2 hc)
  have hidx : a.indexOf c < a.length := List.indexOf_lt_length.2 hmem
  have h := (fillAinv_aux a M hlen hnd hlt ainv hai M (le_refl M)).2 (a.indexOf c) (by omega)
  rw [arr_eq_getElem a _ hidx, List.getElem_indexOf hidx] at h
  exact h

theorem fillAinv_length (a : List Nat) (M : Nat) (ainv : List Nat) :
    (fillAinv M a ainv).length = ainv.length := by
  unfold fillAinv
  generalize List.range M = r
  induction r generalizing ainv with
  | nil => rfl
  | cons j r ih => simp [List.foldl_cons, ih]

theorem fillX_length (Mnew : Nat) (y ainv select x : List Nat) :
    (fillX Mnew y ainv select x).length = x.length := by
  unfold fillX
  generalize List.range Mnew = r
  induction r generalizing x with
  | nil => rfl
  | cons j r ih => simp [List.foldl_cons, ih]

theorem fillY_length (Mnew : Nat) (x a y : List Nat) :
    (fillY Mnew x a y).length = y.length := by
  unfold fillY
  generalize List.range Mnew = r
  induction r generalizing y with
  | nil => rfl
  | cons j r ih => simp [List.foldl_cons, ih]

/-! ## The cursor -/

/-- The stable partition by allele only reorders the columns. -/
theorem partitionByAllele_perm (a y : List Nat) (h : a.length ≤ y.length) :
    (partitionByAllele a y).Perm a := by
  unfold partitionByAllele
  have hp := (List.filter_append_perm (fun c : Nat × Nat => c.2 == 0) (a.zip y)).map Prod.fst
  rw [List.map_append, List.map_fst_zip _ _ h] at hp
  exact hp

theorem cursorOK_forwardsRead (u : PbwtCursor) (M : Nat) (h : cursorOK u M)
    (hz : ∀ v ∈ u.z, v.length = M) : cursorOK (forwardsReadStep u) M := by
  obtain ⟨ha, hy⟩ := h
  have hl : u.a.length = M := by simpa using ha.length_eq
  refine ⟨?_, ?_⟩
  · exact (partitionByAllele_perm u.a u.y (by omega)).trans ha
  · show (u.z.getD (u.n + 1) u.y).length = M
    rw [List.getD_eq_getElem?_getD]
    cases hg : u.z[u.n + 1]? with
    | none => simpa using hy
    | some v => exact hz v (List.getElem?_mem hg)

theorem cursorOK_writeForwards (u : PbwtCursor) (M : Nat) (h : cursorOK u M) :
    cursorOK (pbwtCursorWriteForwards u) M := by
  obtain ⟨ha, hy⟩ := h
  have hl : u.a.length = M := by simpa using ha.length_eq
  exact ⟨(partitionByAllele_perm u.a u.y (by omega)).trans ha, hy⟩

theorem cursorOK_freshStep (u : PbwtCursor) (M : Nat) (x : List Nat) (h : cursorOK u M) :
    cursorOK (freshStep u x) M := by
  obtain ⟨ha, _⟩ := h
  have hl : u.a.length = M := by simpa using ha.length_eq
  apply cursorOK_writeForwards
  exact ⟨ha, by simpa using hl⟩

theorem cursorOK_create_fresh (M N : Nat) : cursorOK (pbwtCursorCreate (pbwtCreate M N)) M := by
  simp [cursorOK, pbwtCursorCreate, pbwtCreate]

/-- Reading a valid matrix: at every site the cursor holds a permutation of the columns
and a full allele buffer, and it stays bound to the matrix's storage. -/
theorem cursorAt_ok (p : PBWT) (z : List (List Nat)) (hz : p.yz = some z)
    (hzl : ∀ v ∈ z, v.length = p.M) (ha : ∀ a ∈ p.aFstart, a.Perm (List.range p.M)) :
    ∀ i, cursorOK (cursorAt p i) p.M ∧ (cursorAt p i).z = z ∧ (cursorAt p i).n = i := by
  intro i
  induction i with
  | zero =>
    refine ⟨⟨?_, ?_⟩, ?_, rfl⟩
    · show (p.aFstart.getD (List.range p.M)).Perm (List.range p.M)
      cases hs : p.aFstart with
      | none => simp
      | some a => exact ha a (by simp [hs])
    · show ((p.yz.getD []).getD 0 (List.replicate p.M 0)).length = p.M
      rw [hz, List.getD_eq_getElem?_getD]
      cases hg : (Option.getD (some z) [])[0]? with
      | none => simp
      | some v => exact hzl v (List.getElem?_mem hg)
    · show p.yz.getD [] = z
      simp [hz]
  | succ i ih =>
    obtain ⟨hok, hzz, hn⟩ := ih
    refine ⟨?_, ?_, ?_⟩
    · exact cursorOK_forwardsRead _ _ hok (by rw [hzz]; exact hzl)
    · exact hzz
    · show (cursorAt p i).n + 1 = i + 1
      rw [hn]

/-- What reading a valid matrix gives for column `c` at site `i`. -/
theorem alleleAt_eq (p : PBWT) (i c : Nat) (hi : i < p.N) (hc : c < p.M)
    (hok : cursorOK (cursorAt p i) p.M) :
    alleleAt p i c = some (arr (cursorAt p i).y ((cursorAt p i).a.indexOf c)) := by
  obtain ⟨ha, hy⟩ := hok
  have hl : (cursorAt p i).a.length = p.M := by simpa using ha.length_eq
  have hmem : c ∈ (cursorAt p i).a := (ha.mem_iff).2 (List.mem_range.2 hc)
  have hidx : (cursorAt p i).a.indexOf c < (cursorAt p i).y.length := by
    have := List.indexOf_lt_length.2 hmem
    omega
  unfold alleleAt
  rw [if_pos ⟨hi, hc⟩]
  simp only [List.getElem?_eq_getElem hidx, arr_eq_getElem _ _ hidx]

/-! ## The site loop of `pbwtSubSample` -/

theorem subSamplePasses_succ (Mold Mnew : Nat) (select : List Nat) (n : Nat) :
    ∀ s, subSamplePasses Mold Mnew select (n + 1) s =
      subSamplePass Mold Mnew select (subSamplePasses Mold Mnew select n s) := by
  induction n with
  | zero => intro s; rfl
  | succ n ih =>
    intro s
    show subSamplePasses Mold Mnew select (n + 1) (subSamplePass Mold Mnew select s) = _
    rw [ih]
    rfl

theorem subSampleAt_succ (pOld : PBWT) (select : List Nat) (i : Nat) :
    subSampleAt pOld select (i + 1) =
      subSamplePass pOld.M select.length select (subSampleAt pOld select i) :=
  subSamplePasses_succ _ _ _ _ _

/-- The source cursor in pass `i` is the cursor that reads site `i` of the source. -/
theorem subSampleAt_uOld (pOld : PBWT) (select : List Nat) (i : Nat) :
    (subSampleAt pOld select i).uOld = cursorAt pOld i := by
  induction i with
  | zero => rfl
  | succ i ih =>
    rw [subSampleAt_succ]
    show forwardsReadStep (subSampleAt pOld select i).uOld = _
    rw [ih]
    rfl

theorem subSampleAt_buffers (pOld : PBWT) (select : List Nat) (i : Nat) :
    (subSampleAt pOld select i).x.length = select.length ∧
    (subSampleAt pOld select i).ainv.length = pOld.M := by
  induction i with
  | zero => simp [subSampleAt, subSamplePasses, subSampleInit, pbwtCreate]
  | succ i ih =>
    rw [subSampleAt_succ]
    exact ⟨by simp [subSamplePass, fillX_length, ih.1], by simp [subSamplePass, fillAinv_length, ih.2]⟩

/-- The result cursor always holds a permutation of the new columns and a full buffer. -/
theorem subSampleAt_uNew_ok (pOld : PBWT) (select : List Nat) (i : Nat) :
    cursorOK (subSampleAt pOld select i).uNew select.length := by
  induction i with
  | zero => exact cursorOK_create_fresh _ _
  | succ i ih =>
    rw [subSampleAt_succ]
    apply cursorOK_writeForwards
    exact ⟨ih.1, by simp [fillY_length, ih.2]⟩

/-- Line 106 recovers, in the result's column order, the source alleles of the selected
columns at the current site. -/
theorem subSamplePass_x (pOld : PBWT) (select : List Nat) (i : Nat) (s : SubSampleState)
    (hu : s.uOld = cursorAt pOld i) (hok : cursorOK (cursorAt pOld i) pOld.M)
    (hai : s.ainv.length = pOld.M) (hx : s.x.length = select.length)
    (hi : i < pOld.N) (hs : selectInRange select pOld.M) :
    (subSamplePass pOld.M select.length select s).x =
      select.map (fun c => (alleleAt pOld i c).getD 0) := by
  show fillX select.length s.uOld.y (fillAinv pOld.M s.uOld.a s.ainv) select s.x = _
  unfold fillX
  rw [foldl_set_range _ _ _ hx]
  have h1 := map_range_getD
    (fun c => arr s.uOld.y (arr (fillAinv pOld.M s.uOld.a s.ainv) c)) select
  simp only [arr] at h1 ⊢
  rw [h1]
  apply List.map_congr_left
  intro c hc
  have hcM : c < pOld.M := hs c hc
  have h2 := fillAinv_eq_indexOf s.uOld.a pOld.M (by rw [hu]; exact hok.1) s.ainv hai c hcM
  simp only [arr] at h2
  rw [h2, alleleAt_eq pOld i c hi hcM hok, hu]
  simp [arr]

theorem fillY_eq (M : Nat) (x a y : List Nat) (hy : y.length = M) (ha : a.length = M) :
    fillY M x a y = a.map (fun c => arr x c) := by
  unfold fillY
  rw [foldl_set_range _ _ _ hy]
  subst ha
  exact map_range_getD (fun c => arr x c) a

/-- Lines 107 and 108 are the from-scratch encoding of the row found by line 106. -/
theorem subSamplePass_uNew (Mold : Nat) (select : List Nat) (s : SubSampleState)
    (hok : cursorOK s.uNew select.length) :
    (subSamplePass Mold select.length select s).uNew =
      freshStep s.uNew (subSamplePass Mold select.length select s).x := by
  have hl : s.uNew.a.length = select.length := by simpa using hok.1.length_eq
  show pbwtCursorWriteForwards
      { s.uNew with y := fillY select.length (subSamplePass Mold select.length select s).x
                          s.uNew.a s.uNew.y } = _
  rw [fillY_eq _ _ _ _ hok.2 hl]
  rfl

theorem freshCursor_snoc (M : Nat) (rows : List (List Nat)) (x : List Nat) :
    freshCursor M (rows ++ [x]) = freshStep (freshCursor M rows) x := by
  simp [freshCursor, List.foldl_append, pbwtCursorCreate, pbwtCreate]

theorem selectedRows_take_succ (pOld : PBWT) (select : List Nat) (i : Nat) (hi : i < pOld.N) :
    (selectedRows pOld select).take (i + 1) =
      (selectedRows pOld select).take i ++ [select.map (fun c => (alleleAt pOld i c).getD 0)] := by
  have hl : i < (selectedRows pOld select).length := by simpa [selectedRows] using hi
  rw [List.take_succ, List.getElem?_eq_getElem hl]
  simp [selectedRows]

/-- The result cursor in pass `i` is the cursor of the matrix built from scratch from the
first `i` rows of the selected columns. -/
theorem subSampleAt_uNew (pOld : PBWT) (select : List Nat) (hv : pOld.valid)
    (hs : selectInRange select pOld.M) (i : Nat) (hi : i ≤ pOld.N) :
    (subSampleAt pOld select i).uNew =
      freshCursor select.length ((selectedRows pOld select).take i) := by
  obtain ⟨⟨z, hz, _, hzl⟩, ha, _⟩ := hv
  induction i with
  | zero => simp [subSampleAt, subSamplePasses, subSampleInit, freshCursor, pbwtCursorCreate, pbwtCreate]
  | succ i ih =>
    have hi1 : i < pOld.N := by omega
    rw [selectedRows_take_succ pOld select i hi1, freshCursor_snoc, ← ih (by omega),
      subSampleAt_succ, subSamplePass_uNew _ _ _ (subSampleAt_uNew_ok pOld select i),
      subSamplePass_x pOld select i _ (subSampleAt_uOld pOld select i)
        (cursorAt_ok pOld z hz hzl ha i).1 (subSampleAt_buffers pOld select i).2
        (subSampleAt_buffers pOld select i).1 hi1 hs]

/-- A pass whose read is made at a site does not fail. -/
theorem subSampleStep_ok (Mold Mnew : Nat) (select : List Nat) (s : SubSampleState)
    (h : s.uOld.n < s.uOld.z.length) :
    subSampleStep Mold Mnew select s = .ok (subSamplePass Mold Mnew select s) := by
  simp only [subSampleStep, pbwtCursorForwardsRead, if_pos h]
  rfl

/-- A pass whose read is made beyond the last site fails. -/
theorem subSampleStep_error (Mold Mnew : Nat) (select : List Nat) (s : SubSampleState)
    (h : ¬ s.uOld.n < s.uOld.z.length) :
    subSampleStep Mold Mnew select s = .error Die.advancePastLastSite := by
  simp only [subSampleStep, pbwtCursorForwardsRead, if_neg h]

/-- The loop does not fail while the sites last: `n` passes from a cursor with at least `n`
sites to go. -/
theorem subSampleLoop_ok (Mold Mnew : Nat) (select : List Nat) (n : Nat) :
    ∀ s, s.uOld.n + n ≤ s.uOld.z.length →
      subSampleLoop Mold Mnew select n s = .ok (subSamplePasses Mold Mnew select n s) := by
  induction n with
  | zero => intro s _; rfl
  | succ n ih =>
    intro s h
    have h1 : s.uOld.n < s.uOld.z.length := by omega
    have h2 : (subSamplePass Mold Mnew select s).uOld.n + n ≤
        (subSamplePass Mold Mnew select s).uOld.z.length := by
      show s.uOld.n + 1 + n ≤ s.uOld.z.length
      omega
    have h3 : subSampleLoop Mold Mnew select (n + 1) s =
        subSampleLoop Mold Mnew select n (subSamplePass Mold Mnew select s) := by
      simp only [subSampleLoop, subSampleStep_ok _ _ _ _ h1]
    rw [h3]
    exact ih _ h2

/-- The site loop of `pbwtSubSample` on a source that stores its `N` sites reaches the
state `subSampleAt` names, at every pass. -/
theorem subSampleLoop_at (pOld : PBWT) (select : List Nat) (z : List (List Nat))
    (hz : pOld.yz = some z) (hzN : z.length = pOld.N) (i : Nat) (hi : i ≤ pOld.N) :
    subSampleLoop pOld.M select.length select i
        (subSampleInit pOld (pbwtCreate select.length pOld.N)) =
      .ok (subSampleAt pOld select i) := by
  apply subSampleLoop_ok
  show 0 + i ≤ (pOld.yz.getD []).length
  rw [hz]
  show 0 + i ≤ z.length
  omega

/-- What `pbwtSubSample` returns on a source with storage. -/
theorem pbwtSubSampleCore_ok (pOld : PBWT) (select : List Nat) (z : List (List Nat))
    (hz : pOld.yz = some z) (hzN : z.length = pOld.N) :
    pbwtSubSampleCore (some pOld) select = .ok
      ({ N := pOld.N, M := select.length, chrom := pOld.chrom, sites := pOld.sites,
         samples := subSampleSamples pOld select.length select,
         yz := some (subSampleAt pOld select pOld.N).uNew.z,
         aFstart := none, aFend := some (subSampleAt pOld select pOld.N).uNew.a,
         zMissing := none, zDosage := none, isX := pOld.isX, isY := pOld.isY },
       { pOld with chrom := none, sites := none }) := by
  have hl := subSampleLoop_at pOld select z hz hzN pOld.N (le_refl _)
  simp only [pbwtSubSampleCore, hz]
  rw [show (pbwtCreate select.length pOld.N).M = select.length from rfl, hl]
  rfl

theorem pbwtSubSample_ok (pOld : PBWT) (select : List Nat) (z : List (List Nat))
    (hz : pOld.yz = some z) (hzN : z.length = pOld.N) :
    pbwtSubSample (some pOld) select = .ok
      { N := pOld.N, M := select.length, chrom := pOld.chrom, sites := pOld.sites,
        samples := subSampleSamples pOld select.length select,
        yz := some (subSampleAt pOld select pOld.N).uNew.z,
        aFstart := none, aFend := some (subSampleAt pOld select pOld.N).uNew.a,
        zMissing := none, zDosage := none, isX := pOld.isX, isY := pOld.isY } := by
  unfold pbwtSubSample
  rw [pbwtSubSampleCore_ok pOld select z hz hzN]
  rfl

/-- The fields of the matrix `pbwtSubSample` returns. -/
theorem pbwtSubSample_fields (pOld : PBWT) (select : List Nat) (z : List (List Nat))
    (hz : pOld.yz = some z) (hzN : z.length = pOld.N) :
    ∃ r, pbwtSubSample (some pOld) select = .ok r ∧ r.N = pOld.N ∧ r.M = select.length ∧
      r.yz = some (subSampleAt pOld select pOld.N).uNew.z ∧ r.aFstart = none ∧
      r.aFend = some (subSampleAt pOld select pOld.N).uNew.a ∧
      r.samples = subSampleSamples pOld select.length select :=
  ⟨_, pbwtSubSample_ok pOld select z hz hzN, rfl, rfl, rfl, rfl, rfl, rfl⟩

/-! ## Reading back what was encoded -/

theorem cursorAt_z_n (p : PBWT) (i : Nat) :
    (cursorAt p i).z = p.yz.getD [] ∧ (cursorAt p i).n = i := by
  induction i with
  | zero => exact ⟨rfl, rfl⟩
  | succ i ih =>
    refine ⟨ih.1, ?_⟩
    show (cursorAt p i).n + 1 = i + 1
    rw [ih.2]

theorem freshCursor_ok (M : Nat) (rows : List (List Nat)) : cursorOK (freshCursor M rows) M := by
  induction rows using List.reverseRecOn with
  | nil => exact cursorOK_create_fresh M 0
  | append_singleton l x ih =>
    rw [freshCursor_snoc]
    exact cursorOK_freshStep _ _ _ ih

/-- The storage written from scratch: entry `k` is row `k` put into the rank order that
the first `k` rows produce. -/
theorem freshCursor_z (M : Nat) (rows : List (List Nat)) (k : Nat) (hk : k < rows.length) :
    (freshCursor M rows).z[k]? =
      some ((freshCursor M (rows.take k)).a.map (fun c => arr (rows.getD k []) c)) := by
  induction rows using List.reverseRecOn with
  | nil => simp at hk
  | append_singleton l x ih =>
    rw [freshCursor_snoc]
    have hz : (freshStep (freshCursor M l) x).z =
        (freshCursor M l).z ++ [(freshCursor M l).a.map (fun c => arr x c)] := rfl
    have hlen : ∀ rs : List (List Nat), (freshCursor M rs).z.length = rs.length := by
      intro rs
      induction rs using List.reverseRecOn with
      | nil => rfl
      | append_singleton l2 x2 ih2 =>
        rw [freshCursor_snoc]
        show ((freshCursor M l2).z ++ [_]).length = _
        simp [ih2]
    rw [hz]
    by_cases hkl : k < l.length
    · rw [List.getElem?_append_left (by rw [hlen]; exact hkl), ih hkl,
        List.take_append_of_le_length (by omega)]
      simp [List.getElem?_append_left hkl]
    · have hkeq : k = l.length := by
        simp only [List.length_append, List.length_singleton] at hk
        omega
      subst hkeq
      rw [List.getElem?_append_right (by rw [hlen]), hlen]
      simp

/-- Reading a matrix that was built from scratch retraces the permutations of the build
and finds at each site the vector that was encoded there. -/
theorem cursorAt_fresh (r : PBWT) (rows : List (List Nat))
    (hyz : r.yz = some (freshCursor r.M rows).z) (hst : r.aFstart = none) :
    ∀ k, k < rows.length →
      (cursorAt r k).a = (freshCursor r.M (rows.take k)).a ∧
      (cursorAt r k).y =
        (freshCursor r.M (rows.take k)).a.map (fun c => arr (rows.getD k []) c) := by
  intro k
  induction k with
  | zero =>
    intro hk
    refine ⟨?_, ?_⟩
    · show r.aFstart.getD (List.range r.M) = _
      rw [hst]
      rfl
    · show (r.yz.getD []).getD 0 (List.replicate r.M 0) = _
      rw [hyz, List.getD_eq_getElem?_getD, Option.getD_some, freshCursor_z r.M rows 0 hk]
      rfl
  | succ k ih =>
    intro hk
    have hk0 : k < rows.length := by omega
    obtain ⟨iha, ihy⟩ := ih hk0
    have hrow : rows.take (k + 1) = rows.take k ++ [rows.getD k []] := by
      rw [List.take_succ, List.getElem?_eq_getElem hk0]
      simp [List.getElem?_eq_getElem hk0]
    have ha : (cursorAt r (k + 1)).a = (freshCursor r.M (rows.take (k + 1))).a := by
      rw [hrow, freshCursor_snoc]
      show partitionByAllele (cursorAt r k).a (cursorAt r k).y =
        partitionByAllele (freshCursor r.M (rows.take k)).a _
      rw [iha, ihy]
    refine ⟨ha, ?_⟩
    show (cursorAt r k).z.getD ((cursorAt r k).n + 1) (cursorAt r k).y = _
    rw [(cursorAt_z_n r k).1, (cursorAt_z_n r k).2, hyz, List.getD_eq_getElem?_getD,
      Option.getD_some, freshCursor_z r.M rows (k + 1) hk]
    rfl

theorem isBijection_of_perm (a : List Nat) (M : Nat) (h : a.Perm (List.range M)) :
    isBijection a M :=
  ⟨by simpa using h.length_eq, (h.nodup_iff).2 (List.nodup_range M),
    fun c hc => List.mem_range.1 ((h.mem_iff).1 hc)⟩

/-! ## The claims on `pbwtSubSample` -/

/-- C1 (allele preservation): on a valid source and an in-range selection `pbwtSubSample`
returns a matrix in which, at every site `i` and every new column `j`, reading gives an
allele, and it is the allele the source has at site `i` in column `select[j]`. -/
theorem pbwtSubSample_allele_preservation (pOld : PBWT) (select : List Nat)
    (hv : pOld.valid) (hs : selectInRange select pOld.M) :
    ∃ r, pbwtSubSample (some pOld) select = .ok r ∧
      ∀ i j, i < pOld.N → j < select.length →
        ∃ v, alleleAt r i j = some v ∧ alleleAt pOld i (arr select j) = some v := by
  have hv0 := hv
  obtain ⟨⟨z, hz, hzN, hzl⟩, ha, _⟩ := hv
  obtain ⟨r, hr, hrN, hrM, hryz, hst, _, _⟩ := pbwtSubSample_fields pOld select z hz hzN
  refine ⟨r, hr, ?_⟩
  intro i j hi hj
  have hrows : (selectedRows pOld select).length = pOld.N := by simp [selectedRows]
  have hyz : r.yz = some (freshCursor r.M (selectedRows pOld select)).z := by
    rw [hrM, hryz, subSampleAt_uNew pOld select hv0 hs pOld.N (le_refl _)]
    congr 3
    rw [← hrows, List.take_length]
  obtain ⟨ca, cy⟩ := cursorAt_fresh r (selectedRows pOld select) hyz hst i (by omega)
  rw [hrM] at ca cy
  have hF := freshCursor_ok select.length ((selectedRows pOld select).take i)
  have hmem : j ∈ (freshCursor select.length ((selectedRows pOld select).take i)).a :=
    (hF.1.mem_iff).2 (List.mem_range.2 hj)
  have hidx := List.indexOf_lt_length.2 hmem
  have hsj : arr select j < pOld.M := by
    rw [arr_eq_getElem select j hj]; exact hs _ (List.getElem_mem _)
  have hold := alleleAt_eq pOld i (arr select j) hi hsj (cursorAt_ok pOld z hz hzl ha i).1
  refine ⟨_, ?_, hold⟩
  unfold alleleAt
  rw [if_pos ⟨by omega, by omega⟩]
  simp only [ca, cy]
  rw [List.getElem?_map, List.getElem?_eq_getElem hidx, List.getElem_indexOf hidx]
  have hrow : (selectedRows pOld select).getD i [] =
      select.map (fun c => (alleleAt pOld i c).getD 0) := by
    simp [selectedRows, List.getElem?_eq_getElem, hi]
  rw [hrow]
  simp only [Option.map_some', arr, List.getD_eq_getElem?_getD, List.getElem?_map,
    List.getElem?_eq_getElem hj, Option.getD_some]
  have hold2 := hold
  simp only [arr, List.getD_eq_getElem?_getD, List.getElem?_eq_getElem hj, Option.getD_some] at hold2
  rw [hold2]
  simp

/-- Witness for C1: columns 0 and 2 of the example source. -/
theorem pbwtSubSample_allele_preservation_witness :
    exampleSource.valid ∧ selectInRange [0, 2] exampleSource.M ∧
    ∃ r, pbwtSubSample (some exampleSource) [0, 2] = .ok r ∧
      ∀ i j, i < exampleSource.N → j < [0, 2].length →
        ∃ v, alleleAt r i j = some v ∧ alleleAt exampleSource i (arr [0, 2] j) = some v :=
  ⟨by decide, by decide,
    pbwtSubSample_allele_preservation exampleSource [0, 2] (by decide) (by decide)⟩

/-- C2 (sort invariant independence): on a valid source and an in-range selection, what
`pbwtSubSample` encodes is what building a fresh `len(select)`-column matrix from the raw
alleles of the selected columns gives, from the identity permutation on: the same stored
vectors and permutation after every pass of the loop, the same final storage and the same
final permutation. -/
theorem pbwtSubSample_eq_fresh (pOld : PBWT) (select : List Nat)
    (hv : pOld.valid) (hs : selectInRange select pOld.M) :
    ∃ r, pbwtSubSample (some pOld) select = .ok r ∧
      r.yz = some (freshCursor select.length (selectedRows pOld select)).z ∧
      r.aFend = some (freshCursor select.length (selectedRows pOld select)).a ∧
      ∀ i, i ≤ pOld.N →
        (subSampleAt pOld select i).uNew.z =
          (freshCursor select.length ((selectedRows pOld select).take i)).z ∧
        (subSampleAt pOld select i).uNew.a =
          (freshCursor select.length ((selectedRows pOld select).take i)).a := by
  have hv0 := hv
  obtain ⟨⟨z, hz, hzN, _⟩, _, _⟩ := hv
  obtain ⟨r, hr, _, _, hryz, _, hrend, _⟩ := pbwtSubSample_fields pOld select z hz hzN
  have hrows : (selectedRows pOld select).length = pOld.N := by simp [selectedRows]
  have hfull : (subSampleAt pOld select pOld.N).uNew =
      freshCursor select.length (selectedRows pOld select) := by
    rw [subSampleAt_uNew pOld select hv0 hs pOld.N (le_refl _)]
    congr 1
    rw [← hrows, List.take_length]
  refine ⟨r, hr, ?_, ?_, ?_⟩
  · rw [hryz, hfull]
  · rw [hrend, hfull]
  · intro i hi
    rw [subSampleAt_uNew pOld select hv0 hs i hi]
    exact ⟨rfl, rfl⟩

/-- Witness for C2: columns 0 and 2 of the 3-column, 2-site example source. -/
theorem pbwtSubSample_eq_fresh_witness :
    exampleSource.valid ∧ selectInRange [0, 2] exampleSource.M ∧
    ∃ r, pbwtSubSample (some exampleSource) [0, 2] = .ok r ∧
      r.yz = some (freshCursor [0, 2].length (selectedRows exampleSource [0, 2])).z ∧
      r.aFend = some (freshCursor [0, 2].length (selectedRows exampleSource [0, 2])).a ∧
      ∀ i, i ≤ exampleSource.N →
        (subSampleAt exampleSource [0, 2] i).uNew.z =
          (freshCursor [0, 2].length ((selectedRows exampleSource [0, 2]).take i)).z ∧
        (subSampleAt exampleSource [0, 2] i).uNew.a =
          (freshCursor [0, 2].length ((selectedRows exampleSource [0, 2]).take i)).a :=
  ⟨by decide, by decide, pbwtSubSample_eq_fresh exampleSource [0, 2] (by decide) (by decide)⟩

/-- C3 (permutation validity): on a valid source and an in-range selection, the result
cursor's permutation is a bijection on `[0, len(select))` at the top of every pass of the
loop and after the loop, and the permutation `pbwtCursorToAFend` records in the returned
matrix is one. -/
theorem pbwtSubSample_permutation_valid (pOld : PBWT) (select : List Nat)
    (hv : pOld.valid) (_ : selectInRange select pOld.M) :
    (∀ i, i ≤ pOld.N → isBijection (subSampleAt pOld select i).uNew.a select.length) ∧
    ∃ r a, pbwtSubSample (some pOld) select = .ok r ∧ r.aFend = some a ∧
      isBijection a select.length := by
  obtain ⟨⟨z, hz, hzN, _⟩, _, _⟩ := hv
  obtain ⟨r, hr, _, _, _, _, hrend, _⟩ := pbwtSubSample_fields pOld select z hz hzN
  have hb : ∀ i, isBijection (subSampleAt pOld select i).uNew.a select.length :=
    fun i => isBijection_of_perm _ _ (subSampleAt_uNew_ok pOld select i).1
  exact ⟨fun i _ => hb i, r, _, hr, hrend, hb pOld.N⟩

/-- Witness for C3: columns 0 and 2 of the example source. -/
theorem pbwtSubSample_permutation_valid_witness :
    exampleSource.valid ∧ selectInRange [0, 2] exampleSource.M ∧
    ((∀ i, i ≤ exampleSource.N →
        isBijection (subSampleAt exampleSource [0, 2] i).uNew.a [0, 2].length) ∧
      ∃ r a, pbwtSubSample (some exampleSource) [0, 2] = .ok r ∧ r.aFend = some a ∧
        isBijection a [0, 2].length) :=
  ⟨by decide, by decide,
    pbwtSubSample_permutation_valid exampleSource [0, 2] (by decide) (by decide)⟩

/-- C7 (column mapping of the result): on a valid source and an in-range selection, a
source without a column mapping gives a result without one, and a source with the
mapping `os` gives a result whose mapping has `len(select)` entries, entry `j` being
`os[select[j]]`. -/
theorem pbwtSubSample_samples (pOld : PBWT) (select : List Nat)
    (hv : pOld.valid) (hs : selectInRange select pOld.M) :
    ∃ r, pbwtSubSample (some pOld) select = .ok r ∧
      (pOld.samples = none → r.samples = none) ∧
      ∀ os, pOld.samples = some os →
        ∃ m, r.samples = some m ∧ m.length = select.length ∧
          ∀ j, j < select.length → ∃ v, m[j]? = some v ∧ os[arr select j]? = some v := by
  obtain ⟨⟨z, hz, hzN, _⟩, _, hm⟩ := hv
  obtain ⟨r, hr, _, _, _, _, _, hrs⟩ := pbwtSubSample_fields pOld select z hz hzN
  refine ⟨r, hr, ?_, ?_⟩
  · intro hn
    rw [hrs]
    simp [subSampleSamples, hn]
  · intro os hos
    have hlen : os.length = pOld.M := hm os hos
    refine ⟨(List.range select.length).map (fun j => arr os (arr select j)), ?_, by simp, ?_⟩
    · rw [hrs]
      simp only [subSampleSamples, hos]
      rw [foldl_arraySet_range]
    · intro j hj
      have hsj : arr select j < os.length := by
        rw [arr_eq_getElem select j hj, hlen]; exact hs _ (List.getElem_mem _)
      refine ⟨arr os (arr select j), ?_, ?_⟩
      · simp [List.getElem?_map, List.getElem?_range hj]
      · rw [List.getElem?_eq_getElem hsj, arr_eq_getElem os _ hsj]

/-- Witness for C7: columns 0 and 2 of the example source, whose mapping is 5, 6, 7. -/
theorem pbwtSubSample_samples_witness :
    exampleSource.valid ∧ selectInRange [0, 2] exampleSource.M ∧
    ∃ r, pbwtSubSample (some exampleSource) [0, 2] = .ok r ∧
      (exampleSource.samples = none → r.samples = none) ∧
      ∀ os, exampleSource.samples = some os →
        ∃ m, r.samples = some m ∧ m.length = [0, 2].length ∧
          ∀ j, j < [0, 2].length → ∃ v, m[j]? = some v ∧ os[arr [0, 2] j]? = some v :=
  ⟨by decide, by decide, pbwtSubSample_samples exampleSource [0, 2] (by decide) (by decide)⟩

/-- The example at work: columns 0 and 2 of the example source give the storage
`0 0`, `1 0`, the final permutation `1 0` and the mapping 5, 7. -/
theorem pbwtSubSample_example :
    (pbwtSubSample (some exampleSource) [0, 2]).toOption.map
        (fun r => (r.yz, r.aFend, r.samples)) =
      some (some [[0, 0], [1, 0]], some [1, 0], some [5, 7]) := by
  decide

/-! ## The selection built by `pbwtSelectSamples` -/

theorem arr_uArray (l : List Nat) (i j : Nat) : arr (uArray 0 l i) j = arr l j := by
  unfold uArray arr
  split
  · rfl
  · rename_i h
    simp only [List.getD_eq_getElem?_getD]
    by_cases hj : j < l.length
    · rw [List.getElem?_append_left hj]
    · have hl : l[j]? = none := List.getElem?_eq_none (by omega)
      rw [List.getElem?_append_right (by omega), hl]
      cases hg : (List.replicate (i + 1 - l.length) 0)[j - l.length]? with
      | none => rfl
      | some v =>
        have := List.getElem?_mem hg
        simp only [List.mem_replicate] at this
        simp [this.2]

theorem length_uArray (l : List Nat) (i : Nat) :
    i < (uArray 0 l i).length ∧ l.length ≤ (uArray 0 l i).length := by
  unfold uArray
  split
  · exact ⟨by assumption, le_refl _⟩
  · simp only [List.length_append, List.length_replicate]
    omega

theorem arr_arraySet (l : List Nat) (i v j : Nat) :
    arr (arraySet 0 l i v) j = if j = i then v else arr l j := by
  unfold arraySet
  by_cases h : j = i
  · subst h
    rw [if_pos rfl]
    exact arr_set_self _ _ _ (length_uArray l j).1
  · rw [if_neg h, arr_set_ne _ _ _ _ (fun e => h e.symm), arr_uArray]

theorem length_arraySet (l : List Nat) (i v : Nat) :
    i < (arraySet 0 l i v).length ∧ l.length ≤ (arraySet 0 l i v).length := by
  unfold arraySet
  rw [List.length_set]
  exact length_uArray l i

theorem arraySet_length (l : List Nat) (v : Nat) : arraySet 0 l l.length v = l ++ [v] := by
  simp [arraySet, uArray]

theorem arr_set (l : List Nat) (i v j : Nat) (h : i < l.length) :
    arr (l.set i v) j = if j = i then v else arr l j := by
  by_cases hji : j = i
  · subst hji
    rw [if_pos rfl]
    exact arr_set_self _ _ _ h
  · rw [if_neg hji, arr_set_ne _ _ _ _ (fun e => hji e.symm)]

theorem indexOf_eq_of_not_mem_take (os : List Nat) (k : Nat) (hk : k < os.length)
    (h : os[k] ∉ os.take k) : os.indexOf os[k] = k := by
  have hsplit : os = os.take k ++ os[k] :: os.drop (k + 1) := by
    rw [List.getElem_cons_drop, List.take_append_drop]
  have hlen : (os.take k).length = k := by rw [List.length_take]; omega
  have h2 : List.indexOf os[k] (os.take k ++ os[k] :: os.drop (k + 1)) = k := by
    rw [List.indexOf_append_of_not_mem h, List.indexOf_cons_self, hlen]
    rfl
  rw [← hsplit] at h2
  exact h2

/-- The loop over the old columns (lines 155 to 159) leaves in `oldCount` the number of
columns of each identity and in `oldStart` the first column of each identity present. -/
theorem countLoop_inv (os : List Nat) :
    ∀ k, k ≤ os.length →
      ((List.range k).foldl (countStep os) ⟨[], [], []⟩).select = [] ∧
      (∀ j, arr ((List.range k).foldl (countStep os) ⟨[], [], []⟩).oldCount j =
        (os.take k).count j) ∧
      (∀ j ∈ os.take k,
        arr ((List.range k).foldl (countStep os) ⟨[], [], []⟩).oldStart j = os.indexOf j ∧
        j < ((List.range k).foldl (countStep os) ⟨[], [], []⟩).oldStart.length) := by
  intro k
  induction k with
  | zero => intro _; simp [arr]
  | succ k ih =>
    intro hk
    have hk1 : k < os.length := by omega
    obtain ⟨hsel, hcnt, hst⟩ := ih (by omega)
    rw [List.range_succ, List.foldl_append]
    simp only [List.foldl_cons, List.foldl_nil]
    generalize (List.range k).foldl (countStep os) ⟨[], [], []⟩ = s at hsel hcnt hst
    have hid : arr os k = os[k] := arr_eq_getElem os k hk1
    have htake : os.take (k + 1) = os.take k ++ [os[k]] := by
      rw [List.take_succ, List.getElem?_eq_getElem hk1]
      rfl
    refine ⟨hsel, ?_, ?_⟩
    · intro j
      show arr ((uArray 0 s.oldCount (arr os k)).set (arr os k)
        (arr (uArray 0 s.oldCount (arr os k)) (arr os k) + 1)) j = _
      rw [arr_set _ _ _ _ (length_uArray _ _).1, arr_uArray, arr_uArray, hcnt, hcnt, hid, htake,
        List.count_append, List.count_singleton]
      by_cases hj : j = os[k]
      · subst hj; simp
      · have hj2 : ¬ (os[k] = j) := fun e => hj e.symm
        simp [hj, hj2]
    · intro j hj
      show arr (if arr (uArray 0 s.oldCount (arr os k)) (arr os k) = 0
          then arraySet 0 s.oldStart (arr os k) k else s.oldStart) j = _ ∧
        j < (if arr (uArray 0 s.oldCount (arr os k)) (arr os k) = 0
          then arraySet 0 s.oldStart (arr os k) k else s.oldStart).length
      rw [arr_uArray, hcnt, hid]
      rw [htake, List.mem_append, List.mem_singleton] at hj
      by_cases hc : (os.take k).count os[k] = 0
      · rw [if_pos hc]
        have hnot : os[k] ∉ os.take k := List.count_eq_zero.1 hc
        rw [arr_arraySet]
        by_cases hjk : j = os[k]
        · subst hjk
          rw [if_pos rfl]
          exact ⟨(indexOf_eq_of_not_mem_take os k hk1 hnot).symm, (length_arraySet _ _ _).1⟩
        · rw [if_neg hjk]
          have hj3 : j ∈ os.take k := by
            cases hj with
            | inl h => exact h
            | inr h => exact absurd h hjk
          exact ⟨(hst j hj3).1, lt_of_lt_of_le (hst j hj3).2 (length_arraySet _ _ _).2⟩
      · rw [if_neg hc]
        have hin : os[k] ∈ os.take k := by
          by_contra hno
          exact hc (List.count_eq_zero.2 hno)
        have hj3 : j ∈ os.take k := by
          cases hj with
          | inl h => exact h
          | inr h => rw [h]; exact hin
        exact hst j hj3

/-- The inner loop of line 164 appends `c` consecutive columns from the cursor of the
identity and advances that cursor by `c`. -/
theorem selectInner_spec (id : Nat) :
    ∀ c (s : SelectState), (c = 0 ∨ id < s.oldStart.length) →
      (selectInner id c s).select = s.select ++ List.range' (arr s.oldStart id) c ∧
      (selectInner id c s).oldCount = s.oldCount ∧
      (selectInner id c s).oldStart.length = s.oldStart.length ∧
      ∀ j, arr (selectInner id c s).oldStart j =
        if j = id then arr s.oldStart id + c else arr s.oldStart j := by
  intro c
  induction c with
  | zero =>
    intro s _
    refine ⟨by simp [selectInner], rfl, rfl, ?_⟩
    intro j
    by_cases h : j = id
    · subst h; simp [selectInner]
    · simp [selectInner, h]
  | succ c ih =>
    intro s h
    have hid : id < s.oldStart.length := by
      cases h with
      | inl h0 => omega
      | inr h1 => exact h1
    obtain ⟨h1, h2, h3, h4⟩ := ih
      { s with select := arraySet 0 s.select s.select.length (arr s.oldStart id)
               oldStart := s.oldStart.set id (arr s.oldStart id + 1) }
      (Or.inr (by simpa using hid))
    show (selectInner id c _).select = _ ∧ (selectInner id c _).oldCount = _ ∧
      (selectInner id c _).oldStart.length = _ ∧
      ∀ j, arr (selectInner id c _).oldStart j = _
    refine ⟨?_, h2, ?_, ?_⟩
    · rw [h1]
      simp only [arraySet_length, arr_set_self _ _ _ hid, List.append_assoc, List.singleton_append]
      rw [List.range'_succ]
    · rw [h3]; simp
    · intro j
      rw [h4 j]
      by_cases hj : j = id
      · subst hj
        simp only [if_true, arr_set_self _ _ _ hid]
        omega
      · simp only [if_neg hj]
        exact arr_set_ne _ _ _ _ (fun e => hj e.symm)

theorem identitySelectionSpec_snoc (os req : List Nat) (id : Nat) :
    identitySelectionSpec os (req ++ [id]) =
      identitySelectionSpec os req ++
        List.range' (firstColumn os id + columnCount os id * req.count id) (columnCount os id) := by
  unfold identitySelectionSpec
  rw [List.length_append, List.length_singleton, List.range_succ, List.map_append,
    List.flatten_append]
  congr 1
  · congr 1
    apply List.map_congr_left
    intro i hi
    have hi2 : i < req.length := List.mem_range.1 hi
    have h1 : arr (req ++ [id]) i = arr req i := by
      simp [arr, List.getElem?_append_left hi2]
    have h2 : (req ++ [id]).take i = req.take i := List.take_append_of_le_length (by omega)
    simp only [h1, h2]
  · have h1 : arr (req ++ [id]) req.length = id := by simp [arr]
    have h2 : (req ++ [id]).take req.length = req := List.take_left _ _
    simp [h1, h2]

/-- The loop over the requests (lines 162 to 164), started from the arrays the first loop
leaves, builds the selection of the contract. -/
theorem selectLoop_inv (os : List Nat) (s0 : SelectState) (h0sel : s0.select = [])
    (h0cnt : ∀ j, arr s0.oldCount j = os.count j)
    (h0st : ∀ j ∈ os, arr s0.oldStart j = os.indexOf j ∧ j < s0.oldStart.length) :
    ∀ req : List Nat,
      (req.foldl selectStep s0).select = identitySelectionSpec os req ∧
      (∀ j, arr (req.foldl selectStep s0).oldCount j = os.count j) ∧
      (∀ j ∈ os, arr (req.foldl selectStep s0).oldStart j = os.indexOf j + os.count j * req.count j ∧
        j < (req.foldl selectStep s0).oldStart.length) := by
  intro req
  induction req using List.reverseRecOn with
  | nil =>
    refine ⟨by simp [h0sel, identitySelectionSpec], h0cnt, ?_⟩
    intro j hj
    simpa using h0st j hj
  | append_singleton req id ih =>
    obtain ⟨hsel, hcnt, hst⟩ := ih
    rw [List.foldl_append]
    simp only [List.foldl_cons, List.foldl_nil]
    generalize req.foldl selectStep s0 = s at hsel hcnt hst
    have hc : arr (uArray 0 s.oldCount id) id = os.count id := by rw [arr_uArray, hcnt]
    have hcond : os.count id = 0 ∨ id < s.oldStart.length := by
      by_cases h : os.count id = 0
      · exact Or.inl h
      · refine Or.inr (hst id ?_).2
        by_contra hno
        exact h (List.count_eq_zero.2 hno)
    obtain ⟨h1, h2, h3, h4⟩ := selectInner_spec id (os.count id)
      { s with oldCount := uArray 0 s.oldCount id } hcond
    have hstep : selectStep s id =
        selectInner id (os.count id) { s with oldCount := uArray 0 s.oldCount id } := by
      show selectInner id (arr (uArray 0 s.oldCount id) id) _ = _
      rw [hc]
    rw [hstep]
    refine ⟨?_, ?_, ?_⟩
    · rw [h1, identitySelectionSpec_snoc]
      show s.select ++ _ = _
      rw [hsel]
      congr 1
      by_cases h : os.count id = 0
      · simp [columnCount, h]
      · have hmem : id ∈ os := by
          by_contra hno
          exact h (List.count_eq_zero.2 hno)
        show List.range' (arr s.oldStart id) _ = _
        rw [(hst id hmem).1]
        rfl
    · intro j
      rw [h2]
      show arr (uArray 0 s.oldCount id) j = _
      rw [arr_uArray, hcnt]
    · intro j hj
      rw [h3, h4 j]
      refine ⟨?_, (hst j hj).2⟩
      show (if j = id then arr s.oldStart id + os.count id else arr s.oldStart j) = _
      rw [List.count_append, List.count_singleton]
      by_cases hji : j = id
      · subst hji
        rw [if_pos rfl, (hst j hj).1]
        simp [Nat.mul_add, Nat.add_assoc]
      · have hij : ¬ (id = j) := fun e => hji e.symm
        rw [if_neg hji, (hst j hj).1]
        simp [hij]

/-- The selection of `pbwtSelectSamples` on a mapping with one entry per column. -/
theorem identitySelection_eq (os req : List Nat) :
    identitySelection os.length os req = identitySelectionSpec os req := by
  obtain ⟨h1, h2, h3⟩ := countLoop_inv os os.length (le_refl _)
  rw [List.take_length] at h2 h3
  exact (selectLoop_inv os _ h1 h2 h3 req).1

/-- C4 (the selection of `pbwtSelectSamples`): on a valid source with the column mapping
`os` and a non-empty request list, the selection handed to `pbwtSubSample` is, request by
request in order, `count` consecutive columns starting at
`first + count * (earlier requests of the same identity)`, `first` being the least column
mapped to the identity and `count` the number of columns mapped to it. -/
theorem pbwtSelectSamples_selection (p : PBWT) (os req : List Nat) (hv : p.valid)
    (hm : p.samples = some os) (hne : req ≠ []) :
    identitySelection p.M os req = identitySelectionSpec os req ∧
    pbwtSelectSamples (some p) req = pbwtSubSample (some p) (identitySelectionSpec os req) := by
  have hlen : os.length = p.M := hv.2.2 os hm
  have h1 : identitySelection p.M os req = identitySelectionSpec os req := by
    rw [← hlen]; exact identitySelection_eq os req
  refine ⟨h1, ?_⟩
  have hl : req.length ≠ 0 := by
    intro h; exact hne (List.length_eq_zero.1 h)
  simp only [pbwtSelectSamples, hm, if_neg hl, h1]

/-- Witness for C4: on the mapping 7 7 9 9 the requests 9, 7, 9 select the columns
2 3, 0 1, 4 5. -/
theorem pbwtSelectSamples_selection_witness :
    exampleDiploid.valid ∧ exampleDiploid.samples = some [7, 7, 9, 9] ∧
    ([9, 7, 9] : List Nat) ≠ [] ∧
    identitySelectionSpec [7, 7, 9, 9] [9, 7, 9] = [2, 3, 0, 1, 4, 5] ∧
    identitySelection exampleDiploid.M [7, 7, 9, 9] [9, 7, 9] =
      identitySelectionSpec [7, 7, 9, 9] [9, 7, 9] ∧
    pbwtSelectSamples (some exampleDiploid) [9, 7, 9] =
      pbwtSubSample (some exampleDiploid) (identitySelectionSpec [7, 7, 9, 9] [9, 7, 9]) :=
  ⟨by decide, rfl, by decide, by decide,
    pbwtSelectSamples_selection exampleDiploid [7, 7, 9, 9] [9, 7, 9] (by decide) rfl
      (by decide)⟩

/-! ## The index precondition and the interval guard -/

/-- C5 (the builders and the index precondition), at a failing input: on the valid
4-column source whose columns 2 and 3 belong to sample 9, the request list 9, 9 makes
`pbwtSelectSamples` hand the selection 2 3 4 5 to `pbwtSubSample`; 4 and 5 are no columns
of the source. -/
theorem pbwtSelectSamples_out_of_range :
    exampleDiploid.valid ∧
    identitySelection exampleDiploid.M [7, 7, 9, 9] [9, 9] = [2, 3, 4, 5] ∧
    pbwtSelectSamples (some exampleDiploid) [9, 9] =
      pbwtSubSample (some exampleDiploid) [2, 3, 4, 5] ∧
    ¬ selectInRange [2, 3, 4, 5] exampleDiploid.M := by
  decide

/-- C6 (the guard of `pbwtSubSampleInterval`), at a failing input: with `start = 2147483647`,
`Mnew = 1` and 6 old columns the exact sum exceeds 6, yet the `int` sum wraps to a negative
value, the guard lets the call through and the selection is the single index 2147483647. -/
theorem intervalSelection_overflow :
    (2147483647 : Int) + 1 > 6 ∧
    intAdd 2147483647 1 = -2147483648 ∧
    intervalSelection 2147483647 1 6 = .ok [2147483647] := by
  decide

/-- The two intervals of the contract's examples: `start = 3`, `Mnew = 5` on 6 columns
dies, `start = 0`, `Mnew = 6` on 6 columns selects every column. -/
theorem intervalSelection_examples :
    intervalSelection 3 5 6 = .error Die.badStart ∧
    intervalSelection 0 6 6 = .ok [0, 1, 2, 3, 4, 5] := by
  decide

/-- Away from overflow the guard is the one of the contract: when `start + Mnew` fits an
`int`, the call dies exactly if `start < 0`, `Mnew ≤ 0` or `start + Mnew > Mold`, and
otherwise the selection is `start, start + 1, .., start + Mnew - 1`. -/
theorem intervalSelection_in_range (start Mnew Mold : Int)
    (hfit : -2147483648 ≤ start + Mnew ∧ start + Mnew < 2147483648) :
    (intervalSelection start Mnew Mold = .error Die.badStart ↔
      (start < 0 ∨ Mnew ≤ 0 ∨ start + Mnew > Mold)) ∧
    (¬ (start < 0 ∨ Mnew ≤ 0 ∨ start + Mnew > Mold) →
      intervalSelection start Mnew Mold =
        .ok ((List.range Mnew.toNat).map (fun (i : Nat) => start + (i : Int)))) := by
  have hw : intAdd start Mnew = start + Mnew := by
    unfold intAdd wrapInt; omega
  unfold intervalSelection
  rw [hw]
  refine ⟨?_, ?_⟩
  · by_cases h : start < 0 ∨ Mnew ≤ 0 ∨ start + Mnew > Mold
    · simp [h]
    · simp [h]
  · intro h
    rw [if_neg h]
    unfold intervalSelect
    rw [foldl_arraySet_range]
    congr 1
    apply List.map_congr_left
    intro i hi
    have hi2 : i < Mnew.toNat := List.mem_range.1 hi
    unfold intAdd wrapInt
    omega

/-! ## The sample record store -/

theorem getD_uArray {α : Type} (zero : α) (l : List α) (i j : Nat) :
    (uArray zero l i).getD j zero = l.getD j zero := by
  unfold uArray
  split
  · rfl
  · simp only [List.getD_eq_getElem?_getD]
    by_cases hj : j < l.length
    · rw [List.getElem?_append_left hj]
    · have hl : l[j]? = none := List.getElem?_eq_none (by omega)
      rw [List.getElem?_append_right (by omega), hl]
      cases hg : (List.replicate (i + 1 - l.length) zero)[j - l.length]? with
      | none => rfl
      | some v =>
        have := List.getElem?_mem hg
        simp only [List.mem_replicate] at this
        simp [this.2]

theorem length_uArray_eq {α : Type} (zero : α) (l : List α) (i : Nat) :
    (uArray zero l i).length = max l.length (i + 1) := by
  unfold uArray
  split
  · omega
  · simp only [List.length_append, List.length_replicate]
    omega

theorem samplesUpdate_length (l : List Sample) (k : Nat) (f : Sample → Sample) :
    (samplesUpdate l k f).length = max l.length (k + 1) := by
  simp [samplesUpdate, length_uArray_eq]

theorem samplesUpdate_getD_self (l : List Sample) (k : Nat) (f : Sample → Sample) :
    (samplesUpdate l k f).getD k Sample.zero = f (l.getD k Sample.zero) := by
  have hk : k < (uArray Sample.zero l k).length := by
    rw [length_uArray_eq]; omega
  unfold samplesUpdate
  simp only []
  rw [getD_uArray]
  simp [List.getElem?_set_self hk]

theorem samplesUpdate_getD_ne (l : List Sample) (k j : Nat) (f : Sample → Sample)
    (h : j ≠ k) : (samplesUpdate l k f).getD j Sample.zero = l.getD j Sample.zero := by
  unfold samplesUpdate
  simp only []
  rw [List.getD_eq_getElem?_getD, List.getElem?_set_ne (fun e => h e.symm),
    ← List.getD_eq_getElem?_getD, getD_uArray]

theorem dictAdd_find_self (d : DICT) (s : String) :
    dictFind (dictAdd d s).2.2 s = some (dictAdd d s).2.1 := by
  unfold dictAdd
  cases h : dictFind d s with
  | some i => exact h
  | none =>
    have hs : s ∉ d.names := by
      intro hm
      simp [dictFind, hm] at h
    simp [dictFind, List.indexOf_append_of_not_mem hs]

theorem dictAdd_find_stable (d : DICT) (t s : String) (i : Nat) (h : dictFind d s = some i) :
    dictFind (dictAdd d t).2.2 s = some i := by
  unfold dictAdd
  cases ht : dictFind d t with
  | some j => exact h
  | none =>
    have hs : s ∈ d.names := by
      by_contra hm
      simp [dictFind, hm] at h
    simp only [dictFind, hs, if_true, Option.some.injEq] at h
    simp [dictFind, hs, List.indexOf_append_of_mem hs, h]

theorem dictAdd_of_find (d : DICT) (s : String) (i : Nat) (h : dictFind d s = some i) :
    dictAdd d s = (false, i, d) := by
  simp [dictAdd, h]

theorem getElem?_of_getD (l : List Sample) (j : Nat) (h : j < l.length) :
    l[j]? = some (l.getD j Sample.zero) := by
  simp [List.getElem?_eq_getElem h]

theorem getD_of_getElem? (l : List Sample) (j : Nat) (rec : Sample) (h : l[j]? = some rec) :
    l.getD j Sample.zero = rec ∧ j < l.length := by
  refine ⟨by simp [h], ?_⟩
  by_contra hn
  rw [List.getElem?_eq_none (by omega)] at h
  cases h

theorem storeFrame_refl (st : SampleStore) (k : Nat) : storeFrame st st k :=
  ⟨fun _ _ h => h, fun _ _ h => h, le_refl _, fun _ _ => rfl⟩

theorem storeFrame_trans (a b c : SampleStore) (k : Nat) (h1 : storeFrame a b k)
    (h2 : storeFrame b c k) : storeFrame a c k :=
  ⟨fun s i h => h2.1 s i (h1.1 s i h), fun s i h => h2.2.1 s i (h1.2.1 s i h),
    le_trans h1.2.2.1 h2.2.2.1, fun j hj => (h2.2.2.2 j hj).trans (h1.2.2.2 j hj)⟩

/-- Line 42: the name has the returned id afterwards, and of the record only `nameD` can
have changed. -/
theorem sampleAddName_spec (st : SampleStore) (name : String) :
    storeFrame st (sampleAddName st name).2 (sampleAddName st name).1 ∧
    dictFind (sampleAddName st name).2.sampleDict name = some (sampleAddName st name).1 ∧
    (sampleAddName st name).1 = (dictAdd st.sampleDict name).2.1 ∧
    recordOr (sampleAddName st name).2 (sampleAddName st name).1 =
      { recordOr st (sampleAddName st name).1 with
        nameD := (recordOr (sampleAddName st name).2 (sampleAddName st name).1).nameD } := by
  cases hb : (dictAdd st.sampleDict name).1 with
  | true =>
    have h1 : sampleAddName st name = ((dictAdd st.sampleDict name).2.1,
        { st with sampleDict := (dictAdd st.sampleDict name).2.2
                  samples := samplesUpdate st.samples (dictAdd st.sampleDict name).2.1
                    (fun s => { s with nameD := (dictAdd st.sampleDict name).2.1 }) }) := by
      simp [sampleAddName, hb]
    rw [h1]
    dsimp only
    refine ⟨⟨fun s i h => dictAdd_find_stable _ _ _ _ h, fun _ _ h => h, ?_,
      fun j hj => ?_⟩, dictAdd_find_self _ _, rfl, ?_⟩
    · rw [samplesUpdate_length]; omega
    · simp only [recordOr]
      rw [samplesUpdate_getD_ne _ _ _ _ hj]
    · simp only [recordOr]
      rw [samplesUpdate_getD_self]
  | false =>
    have h1 : sampleAddName st name = ((dictAdd st.sampleDict name).2.1,
        { st with sampleDict := (dictAdd st.sampleDict name).2.2 }) := by
      simp [sampleAddName, hb]
    rw [h1]
    exact ⟨⟨fun s i h => dictAdd_find_stable _ _ _ _ h, fun _ _ h => h, le_refl _,
      fun _ _ => rfl⟩, dictAdd_find_self _ _, rfl, rfl⟩

/-- Line 43: of record `k` only `father` can have changed; an absent name changes
nothing, a supplied one is stored by its id. -/
theorem sampleAddFather_spec (st : SampleStore) (k : Nat) (father : Option String) :
    storeFrame st (sampleAddFather st k father) k ∧
    recordOr (sampleAddFather st k father) k =
      { recordOr st k with father := (recordOr (sampleAddFather st k father) k).father } ∧
    (father = none → sampleAddFather st k father = st) ∧
    (∀ y, father = some y →
      dictFind (sampleAddFather st k father).sampleDict y =
        some (recordOr (sampleAddFather st k father) k).father ∧
      k < (sampleAddFather st k father).samples.length) := by
  cases father with
  | none => exact ⟨storeFrame_refl _ _, rfl, fun _ => rfl, fun y h => (by cases h)⟩
  | some y =>
    refine ⟨⟨fun s i h => dictAdd_find_stable _ _ _ _ h, fun _ _ h => h, ?_, fun j hj => ?_⟩,
      ?_, (fun h => by cases h), ?_⟩
    · simp only [sampleAddFather]
      rw [samplesUpdate_length]; omega
    · simp only [sampleAddFather, recordOr]
      rw [samplesUpdate_getD_ne _ _ _ _ hj]
    · simp only [sampleAddFather, recordOr]
      rw [samplesUpdate_getD_self]
    · intro y2 h
      cases h
      simp only [sampleAddFather, recordOr]
      rw [samplesUpdate_getD_self]
      exact ⟨dictAdd_find_self _ _, by rw [samplesUpdate_length]; omega⟩

/-- Line 44: of record `k` only `mother` can have changed; an absent name changes
nothing, a supplied one is stored by its id. -/
theorem sampleAddMother_spec (st : SampleStore) (k : Nat) (mother : Option String) :
    storeFrame st (sampleAddMother st k mother) k ∧
    recordOr (sampleAddMother st k mother) k =
      { recordOr st k with mother := (recordOr (sampleAddMother st k mother) k).mother } ∧
    (mother = none → sampleAddMother st k mother = st) ∧
    (∀ y, mother = some y →
      dictFind (sampleAddMother st k mother).sampleDict y =
        some (recordOr (sampleAddMother st k mother) k).mother ∧
      k < (sampleAddMother st k mother).samples.length) := by
  cases mother with
  | none => exact ⟨storeFrame_refl _ _, rfl, fun _ => rfl, fun y h => (by cases h)⟩
  | some y =>
    refine ⟨⟨fun s i h => dictAdd_find_stable _ _ _ _ h, fun _ _ h => h, ?_, fun j hj => ?_⟩,
      ?_, (fun h => by cases h), ?_⟩
    · simp only [sampleAddMother]
      rw [samplesUpdate_length]; omega
    · simp only [sampleAddMother, recordOr]
      rw [samplesUpdate_getD_ne _ _ _ _ hj]
    · simp only [sampleAddMother, recordOr]
      rw [samplesUpdate_getD_self]
    · intro y2 h
      cases h
      simp only [sampleAddMother, recordOr]
      rw [samplesUpdate_getD_self]
      exact ⟨dictAdd_find_self _ _, by rw [samplesUpdate_length]; omega⟩

/-- Line 45: of record `k` only `family` can have changed; an absent name changes
nothing, a supplied one is stored by its id. -/
theorem sampleAddFamily_spec (st : SampleStore) (k : Nat) (family : Option String) :
    storeFrame st (sampleAddFamily st k family) k ∧
    recordOr (sampleAddFamily st k family) k =
      { recordOr st k with family := (recordOr (sampleAddFamily st k family) k).family } ∧
    (family = none → sampleAddFamily st k family = st) ∧
    (∀ y, family = some y →
      dictFind (sampleAddFamily st k family).populationDict y =
        some (recordOr (sampleAddFamily st k family) k).family ∧
      k < (sampleAddFamily st k family).samples.length) := by
  cases family with
  | none => exact ⟨storeFrame_refl _ _, rfl, fun _ => rfl, fun y h => (by cases h)⟩
  | some y =>
    refine ⟨⟨fun _ _ h => h, fun s i h => dictAdd_find_stable _ _ _ _ h, ?_, fun j hj => ?_⟩,
      ?_, (fun h => by cases h), ?_⟩
    · simp only [sampleAddFamily]
      rw [samplesUpdate_length]; omega
    · simp only [sampleAddFamily, recordOr]
      rw [samplesUpdate_getD_ne _ _ _ _ hj]
    · simp only [sampleAddFamily, recordOr]
      rw [samplesUpdate_getD_self]
    · intro y2 h
      cases h
      simp only [sampleAddFamily, recordOr]
      rw [samplesUpdate_getD_self]
      exact ⟨dictAdd_find_self _ _, by rw [samplesUpdate_length]; omega⟩

/-- Line 46: of record `k` only `popD` can have changed; an absent name changes
nothing, a supplied one is stored by its id. -/
theorem sampleAddPop_spec (st : SampleStore) (k : Nat) (pop : Option String) :
    storeFrame st (sampleAddPop st k pop) k ∧
    recordOr (sampleAddPop st k pop) k =
      { recordOr st k with popD := (recordOr (sampleAddPop st k pop) k).popD } ∧
    (pop = none → sampleAddPop st k pop = st) ∧
    (∀ y, pop = some y →
      dictFind (sampleAddPop st k pop).populationDict y =
        some (recordOr (sampleAddPop st k pop) k).popD ∧
      k < (sampleAddPop st k pop).samples.length) := by
  cases pop with
  | none => exact ⟨storeFrame_refl _ _, rfl, fun _ => rfl, fun y h => (by cases h)⟩
  | some y =>
    refine ⟨⟨fun _ _ h => h, fun s i h => dictAdd_find_stable _ _ _ _ h, ?_, fun j hj => ?_⟩,
      ?_, (fun h => by cases h), ?_⟩
    · simp only [sampleAddPop]
      rw [samplesUpdate_length]; omega
    · simp only [sampleAddPop, recordOr]
      rw [samplesUpdate_getD_ne _ _ _ _ hj]
    · simp only [sampleAddPop, recordOr]
      rw [samplesUpdate_getD_self]
    · intro y2 h
      cases h
      simp only [sampleAddPop, recordOr]
      rw [samplesUpdate_getD_self]
      exact ⟨dictAdd_find_self _ _, by rw [samplesUpdate_length]; omega⟩

/-- Lines 47 to 50: of record `k` only the two sex flags can have changed, and an absent
sex changes nothing. -/
theorem sampleAddSex_spec (st : SampleStore) (k : Nat) (sex : Option String) :
    storeFrame st (sampleAddSex st k sex) k ∧
    recordOr (sampleAddSex st k sex) k =
      { recordOr st k with isMale := (recordOr (sampleAddSex st k sex) k).isMale
                           isFemale := (recordOr (sampleAddSex st k sex) k).isFemale } ∧
    (sex = none → sampleAddSex st k sex = st) := by
  cases sex with
  | none => exact ⟨storeFrame_refl _ _, rfl, fun _ => rfl⟩
  | some y =>
    refine ⟨?_, ?_, (fun h => by cases h)⟩
    · by_cases hM : strcasecmp y "M" = 0 ∨ strcasecmp y "male" = 0 <;>
        by_cases hF : strcasecmp y "F" = 0 ∨ strcasecmp y "female" = 0
      · simp only [sampleAddSex, hM, hF, if_true]
        refine ⟨fun _ _ h => h, fun _ _ h => h, ?_, fun j hj => ?_⟩
        · rw [samplesUpdate_length, samplesUpdate_length]; omega
        · simp only [recordOr]
          rw [samplesUpdate_getD_ne _ _ _ _ hj, samplesUpdate_getD_ne _ _ _ _ hj]
      · simp only [sampleAddSex, hM, hF, if_true, if_false]
        refine ⟨fun _ _ h => h, fun _ _ h => h, ?_, fun j hj => ?_⟩
        · rw [samplesUpdate_length]; omega
        · simp only [recordOr]
          rw [samplesUpdate_getD_ne _ _ _ _ hj]
      · simp only [sampleAddSex, hM, hF, if_true, if_false]
        refine ⟨fun _ _ h => h, fun _ _ h => h, ?_, fun j hj => ?_⟩
        · rw [samplesUpdate_length]; omega
        · simp only [recordOr]
          rw [samplesUpdate_getD_ne _ _ _ _ hj]
      · simp only [sampleAddSex, hM, hF, if_false]
        exact storeFrame_refl _ _
    · by_cases hM : strcasecmp y "M" = 0 ∨ strcasecmp y "male" = 0 <;>
        by_cases hF : strcasecmp y "F" = 0 ∨ strcasecmp y "female" = 0
      · simp only [sampleAddSex, hM, hF, if_true, recordOr]
        rw [samplesUpdate_getD_self, samplesUpdate_getD_self]
      · simp only [sampleAddSex, hM, hF, if_true, if_false, recordOr]
        rw [samplesUpdate_getD_self]
      · simp only [sampleAddSex, hM, hF, if_true, if_false, recordOr]
        rw [samplesUpdate_getD_self]
      · simp only [sampleAddSex, hM, hF, if_false, recordOr]

theorem sampleAdd_eq (st : SampleStore) (name : String)
    (father mother family pop sex : Option String) :
    sampleAdd st name father mother family pop sex =
      ((sampleAddName st name).1,
        sampleAddSex (sampleAddPop (sampleAddFamily (sampleAddMother
          (sampleAddFather (sampleAddName st name).2 (sampleAddName st name).1 father)
          (sampleAddName st name).1 mother) (sampleAddName st name).1 family)
          (sampleAddName st name).1 pop) (sampleAddName st name).1 sex) := rfl

/-- The whole of `sampleAdd` on the record `k` of the name: the ids given out before and
all other records stay, the name has id `k`, an omitted field of record `k` keeps its
value and a supplied father, mother, family or population is stored by its id. -/
theorem sampleAdd_spec (st : SampleStore) (name : String)
    (father mother family pop sex : Option String) :
    storeFrame st (sampleAdd st name father mother family pop sex).2
      (sampleAdd st name father mother family pop sex).1 ∧
    dictFind (sampleAdd st name father mother family pop sex).2.sampleDict name =
      some (sampleAdd st name father mother family pop sex).1 ∧
    ((father = none →
        (recordOr (sampleAdd st name father mother family pop sex).2
          (sampleAdd st name father mother family pop sex).1).father =
        (recordOr st (sampleAdd st name father mother family pop sex).1).father) ∧
      (mother = none →
        (recordOr (sampleAdd st name father mother family pop sex).2
          (sampleAdd st name father mother family pop sex).1).mother =
        (recordOr st (sampleAdd st name father mother family pop sex).1).mother) ∧
      (family = none →
        (recordOr (sampleAdd st name father mother family pop sex).2
          (sampleAdd st name father mother family pop sex).1).family =
        (recordOr st (sampleAdd st name father mother family pop sex).1).family) ∧
      (pop = none →
        (recordOr (sampleAdd st name father mother family pop sex).2
          (sampleAdd st name father mother family pop sex).1).popD =
        (recordOr st (sampleAdd st name father mother family pop sex).1).popD) ∧
      (sex = none →
        (recordOr (sampleAdd st name father mother family pop sex).2
          (sampleAdd st name father mother family pop sex).1).isMale =
        (recordOr st (sampleAdd st name father mother family pop sex).1).isMale ∧
        (recordOr (sampleAdd st name father mother family pop sex).2
          (sampleAdd st name father mother family pop sex).1).isFemale =
        (recordOr st (sampleAdd st name father mother family pop sex).1).isFemale)) ∧
    ((∀ y, father = some y →
        dictFind (sampleAdd st name father mother family pop sex).2.sampleDict y =
          some (recordOr (sampleAdd st name father mother family pop sex).2
            (sampleAdd st name father mother family pop sex).1).father ∧
        (sampleAdd st name father mother family pop sex).1 <
          (sampleAdd st name father mother family pop sex).2.samples.length) ∧
      (∀ y, mother = some y →
        dictFind (sampleAdd st name father mother family pop sex).2.sampleDict y =
          some (recordOr (sampleAdd st name father mother family pop sex).2
            (sampleAdd st name father mother family pop sex).1).mother ∧
        (sampleAdd st name father mother family pop sex).1 <
          (sampleAdd st name father mother family pop sex).2.samples.length) ∧
      (∀ y, family = some y →
        dictFind (sampleAdd st name father mother family pop sex).2.populationDict y =
          some (recordOr (sampleAdd st name father mother family pop sex).2
            (sampleAdd st name father mother family pop sex).1).family ∧
        (sampleAdd st name father mother family pop sex).1 <
          (sampleAdd st name father mother family pop sex).2.samples.length) ∧
      (∀ y, pop = some y →
        dictFind (sampleAdd st name father mother family pop sex).2.populationDict y =
          some (recordOr (sampleAdd st name father mother family pop sex).2
            (sampleAdd st name father mother family pop sex).1).popD ∧
        (sampleAdd st name father mother family pop sex).1 <
          (sampleAdd st name father mother family pop sex).2.samples.length)) := by
  rw [sampleAdd_eq]
  dsimp only
  obtain ⟨f1, d1, _, r1⟩ := sampleAddName_spec st name
  generalize (sampleAddName st name).1 = k at *
  generalize (sampleAddName st name).2 = st1 at *
  obtain ⟨f2, r2, n2, s2⟩ := sampleAddFather_spec st1 k father
  generalize sampleAddFather st1 k father = st2 at *
  obtain ⟨f3, r3, n3, s3⟩ := sampleAddMother_spec st2 k mother
  generalize sampleAddMother st2 k mother = st3 at *
  obtain ⟨f4, r4, n4, s4⟩ := sampleAddFamily_spec st3 k family
  generalize sampleAddFamily st3 k family = st4 at *
  obtain ⟨f5, r5, n5, s5⟩ := sampleAddPop_spec st4 k pop
  generalize sampleAddPop st4 k pop = st5 at *
  obtain ⟨f6, r6, n6⟩ := sampleAddSex_spec st5 k sex
  generalize sampleAddSex st5 k sex = st6 at *
  have f26 : storeFrame st2 st6 k :=
    storeFrame_trans _ _ _ _ f3 (storeFrame_trans _ _ _ _ f4 (storeFrame_trans _ _ _ _ f5 f6))
  have f36 : storeFrame st3 st6 k :=
    storeFrame_trans _ _ _ _ f4 (storeFrame_trans _ _ _ _ f5 f6)
  have f46 : storeFrame st4 st6 k := storeFrame_trans _ _ _ _ f5 f6
  have f16 : storeFrame st1 st6 k := storeFrame_trans _ _ _ _ f2 f26
  refine ⟨storeFrame_trans _ _ _ _ f1 f16, f16.1 _ _ d1, ⟨?_, ?_, ?_, ?_, ?_⟩, ⟨?_, ?_, ?_, ?_⟩⟩
  · intro h
    rw [n2 h] at r3
    rw [congrArg Sample.father r6, congrArg Sample.father r5, congrArg Sample.father r4,
      congrArg Sample.father r3, congrArg Sample.father r1]
  · intro h
    rw [n3 h] at r4
    rw [congrArg Sample.mother r6, congrArg Sample.mother r5, congrArg Sample.mother r4,
      congrArg Sample.mother r2, congrArg Sample.mother r1]
  · intro h
    rw [n4 h] at r5
    rw [congrArg Sample.family r6, congrArg Sample.family r5, congrArg Sample.family r3,
      congrArg Sample.family r2, congrArg Sample.family r1]
  · intro h
    rw [n5 h] at r6
    rw [congrArg Sample.popD r6, congrArg Sample.popD r4, congrArg Sample.popD r3,
      congrArg Sample.popD r2, congrArg Sample.popD r1]
  · intro h
    rw [n6 h]
    exact ⟨by rw [congrArg Sample.isMale r5, congrArg Sample.isMale r4,
        congrArg Sample.isMale r3, congrArg Sample.isMale r2, congrArg Sample.isMale r1],
      by rw [congrArg Sample.isFemale r5, congrArg Sample.isFemale r4,
        congrArg Sample.isFemale r3, congrArg Sample.isFemale r2, congrArg Sample.isFemale r1]⟩
  · intro y h
    obtain ⟨hd, hl⟩ := s2 y h
    refine ⟨?_, lt_of_lt_of_le hl f26.2.2.1⟩
    rw [congrArg Sample.father r6, congrArg Sample.father r5, congrArg Sample.father r4,
      congrArg Sample.father r3]
    exact f26.1 _ _ hd
  · intro y h
    obtain ⟨hd, hl⟩ := s3 y h
    refine ⟨?_, lt_of_lt_of_le hl f36.2.2.1⟩
    rw [congrArg Sample.mother r6, congrArg Sample.mother r5, congrArg Sample.mother r4]
    exact f36.1 _ _ hd
  · intro y h
    obtain ⟨hd, hl⟩ := s4 y h
    refine ⟨?_, lt_of_lt_of_le hl f46.2.2.1⟩
    rw [congrArg Sample.family r6, congrArg Sample.family r5]
    exact f46.2.1 _ _ hd
  · intro y h
    obtain ⟨hd, hl⟩ := s5 y h
    refine ⟨?_, lt_of_lt_of_le hl f6.2.2.1⟩
    rw [congrArg Sample.popD r6]
    exact f6.2.1 _ _ hd

/-! ## The claims on the sample record store -/

/-- C8 (name round trip), at failing inputs: from a fresh store, after `C` was added with
father `F`, adding `F` returns id 1 and `getSample (1)` dies, the array holding one record;
and when a further individual `B` has grown the array in between, adding `F` with a father
of his own returns id 1, whose record has `nameD` 0 and, through `sampleName`, the name
`C`. -/
theorem sampleAdd_name_round_trip_fails :
    (runCalls sampleInit callsFatherNext).1 = [0, 1] ∧
    (runCalls sampleInit callsFatherNext).2.samples.length = 1 ∧
    getSample (runCalls sampleInit callsFatherNext).2 1 = .error Die.sampleIndexOutOfRange ∧
    (runCalls sampleInit callsFatherLater).1 = [0, 2, 1] ∧
    (getSample (runCalls sampleInit callsFatherLater).2 1).toOption.map Sample.nameD = some 0 ∧
    (getSample (runCalls sampleInit callsFatherLater).2 1).toOption.bind
      (sampleName (runCalls sampleInit callsFatherLater).2) = some "C" := by
  decide

/-- C9 (one record per registered id), at a failing input: from a fresh store, after `C`
was added with father `F` the individual registry holds the two ids 0 and 1 while the
array holds one record; record 0 has father 1, and `getSample (1)` dies. -/
theorem sampleAdd_father_without_record :
    (runCalls sampleInit callsChild).1 = [0] ∧
    (runCalls sampleInit callsChild).2.sampleDict.names = ["C", "F"] ∧
    (runCalls sampleInit callsChild).2.samples.length = 1 ∧
    (getSample (runCalls sampleInit callsChild).2 0).toOption.map Sample.father = some 1 ∧
    getSample (runCalls sampleInit callsChild).2 1 = .error Die.sampleIndexOutOfRange := by
  decide

/-- C10 (idempotence and field retention of `sampleAdd`): for every store and name, (1) a
second call with the name returns the id of the first; (2) a record the name's id had
before the call is still there, with every omitted field (father, mother, family,
population, the two sex flags) as it was; (3) a supplied father, mother, family or
population leaves a record at the name's id whose field is the id of the supplied name in
its dictionary; (4) every other record present before is unchanged. -/
theorem sampleAdd_idempotent_retains (st : SampleStore) (name : String)
    (father mother family pop sex : Option String) :
    (∀ f2 m2 fa2 p2 s2,
      (sampleAdd (sampleAdd st name father mother family pop sex).2 name f2 m2 fa2 p2 s2).1 =
        (sampleAdd st name father mother family pop sex).1) ∧
    (∀ rec, st.samples[(sampleAdd st name father mother family pop sex).1]? = some rec →
      ∃ rec2,
        (sampleAdd st name father mother family pop sex).2.samples[
          (sampleAdd st name father mother family pop sex).1]? = some rec2 ∧
        (father = none → rec2.father = rec.father) ∧
        (mother = none → rec2.mother = rec.mother) ∧
        (family = none → rec2.family = rec.family) ∧
        (pop = none → rec2.popD = rec.popD) ∧
        (sex = none → rec2.isMale = rec.isMale ∧ rec2.isFemale = rec.isFemale)) ∧
    ((∀ y, father = some y → ∃ rec2,
        (sampleAdd st name father mother family pop sex).2.samples[
          (sampleAdd st name father mother family pop sex).1]? = some rec2 ∧
        dictFind (sampleAdd st name father mother family pop sex).2.sampleDict y =
          some rec2.father) ∧
      (∀ y, mother = some y → ∃ rec2,
        (sampleAdd st name father mother family pop sex).2.samples[
          (sampleAdd st name father mother family pop sex).1]? = some rec2 ∧
        dictFind (sampleAdd st name father mother family pop sex).2.sampleDict y =
          some rec2.mother) ∧
      (∀ y, family = some y → ∃ rec2,
        (sampleAdd st name father mother family pop sex).2.samples[
          (sampleAdd st name father mother family pop sex).1]? = some rec2 ∧
        dictFind (sampleAdd st name father mother family pop sex).2.populationDict y =
          some rec2.family) ∧
      (∀ y, pop = some y → ∃ rec2,
        (sampleAdd st name father mother family pop sex).2.samples[
          (sampleAdd st name father mother family pop sex).1]? = some rec2 ∧
        dictFind (sampleAdd st name father mother family pop sex).2.populationDict y =
          some rec2.popD)) ∧
    (∀ j rec, j ≠ (sampleAdd st name father mother family pop sex).1 →
      st.samples[j]? = some rec →
      (sampleAdd st name father mother family pop sex).2.samples[j]? = some rec) := by
  obtain ⟨fr, hd, ⟨kf, km, kfa, kp, ks⟩, ⟨of, om, ofa, op⟩⟩ :=
    sampleAdd_spec st name father mother family pop sex
  generalize (sampleAdd st name father mother family pop sex).1 = k at *
  generalize (sampleAdd st name father mother family pop sex).2 = st2 at *
  refine ⟨?_, ?_, ⟨?_, ?_, ?_, ?_⟩, ?_⟩
  · intro f2 m2 fa2 p2 s2
    rw [sampleAdd_eq]
    show (sampleAddName st2 name).1 = k
    rw [(sampleAddName_spec st2 name).2.2.1, dictAdd_of_find _ _ _ hd]
  · intro rec hrec
    obtain ⟨hr, hl⟩ := getD_of_getElem? _ _ _ hrec
    have hl2 : k < st2.samples.length := lt_of_lt_of_le hl fr.2.2.1
    refine ⟨recordOr st2 k, getElem?_of_getD _ _ hl2, ?_, ?_, ?_, ?_, ?_⟩
    · intro h; rw [kf h]; exact congrArg Sample.father hr
    · intro h; rw [km h]; exact congrArg Sample.mother hr
    · intro h; rw [kfa h]; exact congrArg Sample.family hr
    · intro h; rw [kp h]; exact congrArg Sample.popD hr
    · intro h
      rw [(ks h).1, (ks h).2]
      exact ⟨congrArg Sample.isMale hr, congrArg Sample.isFemale hr⟩
  · intro y h
    exact ⟨recordOr st2 k, getElem?_of_getD _ _ (of y h).2, (of y h).1⟩
  · intro y h
    exact ⟨recordOr st2 k, getElem?_of_getD _ _ (om y h).2, (om y h).1⟩
  · intro y h
    exact ⟨recordOr st2 k, getElem?_of_getD _ _ (ofa y h).2, (ofa y h).1⟩
  · intro y h
    exact ⟨recordOr st2 k, getElem?_of_getD _ _ (op y h).2, (op y h).1⟩
  · intro j rec hj hrec
    obtain ⟨hr, hl⟩ := getD_of_getElem? _ _ _ hrec
    have hl2 : j < st2.samples.length := lt_of_lt_of_le hl fr.2.2.1
    rw [getElem?_of_getD _ _ hl2]
    have h4 : recordOr st2 j = recordOr st j := fr.2.2.2 j hj
    show some (recordOr st2 j) = some rec
    rw [h4]
    exact congrArg some hr

/-- Witness for C10: from a fresh store, `X` added with father `Y` and then `X` added again
with nothing else: the same id both times, and the record of `X` still has the id of `Y`
as father. -/
theorem sampleAdd_idempotent_retains_witness :
    (sampleAdd (sampleAdd sampleInit "X" (some "Y") none none none none).2
      "X" none none none none none).1 =
      (sampleAdd sampleInit "X" (some "Y") none none none none).1 ∧
    (sampleAdd sampleInit "X" (some "Y") none none none none).1 = 0 ∧
    dictFind (sampleAdd (sampleAdd sampleInit "X" (some "Y") none none none none).2
      "X" none none none none none).2.sampleDict "Y" = some 1 ∧
    (getSample (sampleAdd (sampleAdd sampleInit "X" (some "Y") none none none none).2
      "X" none none none none none).2 0).toOption.map Sample.father = some 1 :=
  ⟨(sampleAdd_idempotent_retains sampleInit "X" (some "Y") none none none none).1
      none none none none none,
    by decide, by decide, by decide⟩

/-! ## Ploidy and sex -/

/-- C11 (ploidy rule), counterexample: on a Y-chromosome matrix a sample with neither sex
flag set has ploidy 0 in the code, where the rule of the contract gives 2. -/
theorem samplePloidy_unknown_sex_on_Y :
    exampleY.samples = some [0] ∧ exampleY.isX = false ∧ exampleY.isY = true ∧
    (getSample exampleStoreNoSex 0).toOption.map (fun s => (s.isMale, s.isFemale)) =
      some (false, false) ∧
    samplePloidy exampleStoreNoSex exampleY 0 = .ok 0 ∧
    ploidyRuleSpec true false true false false = 2 := by
  decide

/-- C11 as amended: `samplePloidy` is 2 on a matrix without a sample mapping; with a
mapping it dies when the mapped id is no record of the store (also when it is beyond
the record count), and otherwise, `s` being the mapped record, it is 1 or 2 on an X
matrix as `s` is male or not, 1 or 0 on a Y matrix (that is no X matrix) as `s` is
male or not, and 2 on any other matrix; `isFemale` plays no part, and the value is
always 0, 1 or 2. -/
theorem samplePloidy_rule (st : SampleStore) (p : PBWT) (i : Nat) :
    (p.samples = none → samplePloidy st p i = .ok 2) ∧
    (∀ os, p.samples = some os → arr os i ≥ st.samples.length →
      samplePloidy st p i = .error Die.sampleIndexOutOfRange) ∧
    (∀ os, p.samples = some os → arr os i < st.samples.length →
      ∃ s, st.samples[arr os i]? = some s ∧
        (p.isX = true → samplePloidy st p i = .ok (if s.isMale then 1 else 2)) ∧
        (p.isX = false → p.isY = true →
          samplePloidy st p i = .ok (if s.isMale then 1 else 0)) ∧
        (p.isX = false → p.isY = false → samplePloidy st p i = .ok 2)) ∧
    (∀ v, samplePloidy st p i = .ok v → v = 0 ∨ v = 1 ∨ v = 2) := by
  refine ⟨?_, ?_, ?_, ?_⟩
  · intro h
    simp [samplePloidy, h]
  · intro os h hge
    have hs : sample st p i = .error Die.sampleIndexOutOfRange := by
      simp [sample, h, hge]
    simp [samplePloidy, h, hs]
  · intro os h hlt
    have hs : sample st p i = .ok (st.samples.getD (arr os i) Sample.zero) := by
      have : ¬ (arr os i ≥ st.samples.length) := by omega
      simp only [sample, h, Option.getD_some, this, if_false]
    refine ⟨st.samples.getD (arr os i) Sample.zero, getElem?_of_getD _ _ hlt, ?_, ?_, ?_⟩
    · intro hx
      simp [samplePloidy, h, hs, hx]
    · intro hx hy
      simp [samplePloidy, h, hs, hx, hy]
    · intro hx hy
      simp [samplePloidy, h, hs, hx, hy]
  · intro v hv
    unfold samplePloidy at hv
    cases hm : p.samples with
    | none =>
      simp only [hm] at hv
      cases hv
      exact Or.inr (Or.inr rfl)
    | some os =>
      simp only [hm] at hv
      cases hs : sample st p i with
      | error e => simp [hs] at hv
      | ok s =>
        simp only [hs] at hv
        cases hx : p.isX <;> cases hy : p.isY <;> cases hmale : s.isMale <;>
          simp [hx, hy, hmale] at hv <;> omega

/-- Witness for C11 as amended: the Y-chromosome example with a sample of unknown sex. -/
theorem samplePloidy_rule_witness :
    exampleY.samples = some [0] ∧ arr [0] 0 < exampleStoreNoSex.samples.length ∧
    samplePloidy exampleStoreNoSex exampleY 0 = .ok 0 ∧
    ∃ s, exampleStoreNoSex.samples[arr [0] 0]? = some s ∧
      (exampleY.isX = true →
        samplePloidy exampleStoreNoSex exampleY 0 = .ok (if s.isMale then 1 else 2)) ∧
      (exampleY.isX = false → exampleY.isY = true →
        samplePloidy exampleStoreNoSex exampleY 0 = .ok (if s.isMale then 1 else 0)) ∧
      (exampleY.isX = false → exampleY.isY = false →
        samplePloidy exampleStoreNoSex exampleY 0 = .ok 2) :=
  ⟨rfl, by decide, by decide,
    (samplePloidy_rule exampleStoreNoSex exampleY 0).2.2.1 [0] rfl (by decide)⟩

theorem strcasecmp_male (s : String) :
    (strcasecmp s "M" = 0 ∨ strcasecmp s "male" = 0) ↔ isMaleToken s := by
  have h1 : "M".data.map Char.toLower = ['m'] := by decide
  have h2 : "male".data.map Char.toLower = ['m', 'a', 'l', 'e'] := by decide
  unfold strcasecmp isMaleToken
  rw [h1, h2]
  constructor
  · rintro (h | h)
    · left; by_contra hn; simp [hn] at h
    · right; by_contra hn; simp [hn] at h
  · rintro (h | h)
    · left; simp [h]
    · right; simp [h]

theorem strcasecmp_female (s : String) :
    (strcasecmp s "F" = 0 ∨ strcasecmp s "female" = 0) ↔ isFemaleToken s := by
  have h1 : "F".data.map Char.toLower = ['f'] := by decide
  have h2 : "female".data.map Char.toLower = ['f', 'e', 'm', 'a', 'l', 'e'] := by decide
  unfold strcasecmp isFemaleToken
  rw [h1, h2]
  constructor
  · rintro (h | h)
    · left; by_contra hn; simp [hn] at h
    · right; by_contra hn; simp [hn] at h
  · rintro (h | h)
    · left; simp [h]
    · right; simp [h]

/-- Lines 47 to 50 on a supplied sex string: each flag of record `k` is raised exactly by
its tokens and is otherwise left as it was. -/
theorem sampleAddSex_flags (st : SampleStore) (k : Nat) (s : String) :
    (recordOr (sampleAddSex st k (some s)) k).isMale =
      ((recordOr st k).isMale || decide (isMaleToken s)) ∧
    (recordOr (sampleAddSex st k (some s)) k).isFemale =
      ((recordOr st k).isFemale || decide (isFemaleToken s)) := by
  by_cases hM : strcasecmp s "M" = 0 ∨ strcasecmp s "male" = 0 <;>
    by_cases hF : strcasecmp s "F" = 0 ∨ strcasecmp s "female" = 0
  · have hM2 := (strcasecmp_male s).1 hM
    have hF2 := (strcasecmp_female s).1 hF
    simp only [sampleAddSex, hM, hF, if_true, recordOr]
    rw [samplesUpdate_getD_self, samplesUpdate_getD_self]
    simp [hM2, hF2]
  · have hM2 := (strcasecmp_male s).1 hM
    have hF2 : ¬ isFemaleToken s := fun h => hF ((strcasecmp_female s).2 h)
    simp only [sampleAddSex, hM, hF, if_true, if_false, recordOr]
    rw [samplesUpdate_getD_self]
    simp [hM2, hF2]
  · have hM2 : ¬ isMaleToken s := fun h => hM ((strcasecmp_male s).2 h)
    have hF2 := (strcasecmp_female s).1 hF
    simp only [sampleAddSex, hM, hF, if_true, if_false, recordOr]
    rw [samplesUpdate_getD_self]
    simp [hM2, hF2]
  · have hM2 : ¬ isMaleToken s := fun h => hM ((strcasecmp_male s).2 h)
    have hF2 : ¬ isFemaleToken s := fun h => hF ((strcasecmp_female s).2 h)
    simp only [sampleAddSex, hM, hF, if_false, recordOr]
    simp [hM2, hF2]

/-- C12 (sex token parsing): for every store, every call of `sampleAdd` with a sex string
`s` and `k` the returned id, record `k` afterwards has `isMale` set if it was set before or
`s` is `M` or `male` up to ASCII case, and not otherwise; `isFemale` likewise with `F` and
`female`; any other string leaves both flags as they were; and a record that `k` had
before the call is still there. -/
theorem sampleAdd_sex_tokens (st : SampleStore) (name : String)
    (father mother family pop : Option String) (s : String) :
    (recordOr (sampleAdd st name father mother family pop (some s)).2
        (sampleAdd st name father mother family pop (some s)).1).isMale =
      ((recordOr st (sampleAdd st name father mother family pop (some s)).1).isMale ||
        decide (isMaleToken s)) ∧
    (recordOr (sampleAdd st name father mother family pop (some s)).2
        (sampleAdd st name father mother family pop (some s)).1).isFemale =
      ((recordOr st (sampleAdd st name father mother family pop (some s)).1).isFemale ||
        decide (isFemaleToken s)) ∧
    ((sampleAdd st name father mother family pop (some s)).1 < st.samples.length →
      (sampleAdd st name father mother family pop (some s)).1 <
        (sampleAdd st name father mother family pop (some s)).2.samples.length) := by
  have h1 : (sampleAdd st name father mother family pop (some s)).1 =
      (sampleAdd st name father mother family pop none).1 := rfl
  have h2 : (sampleAdd st name father mother family pop (some s)).2 =
      sampleAddSex (sampleAdd st name father mother family pop none).2
        (sampleAdd st name father mother family pop none).1 (some s) := rfl
  obtain ⟨fr, _, ⟨_, _, _, _, ks⟩, _⟩ := sampleAdd_spec st name father mother family pop none
  obtain ⟨hm, hf⟩ := sampleAddSex_flags (sampleAdd st name father mother family pop none).2
    (sampleAdd st name father mother family pop none).1 s
  have fr2 := (sampleAddSex_spec (sampleAdd st name father mother family pop none).2
    (sampleAdd st name father mother family pop none).1 (some s)).1
  rw [h1, h2]
  generalize (sampleAdd st name father mother family pop none).1 = k at *
  generalize (sampleAdd st name father mother family pop none).2 = st5 at *
  refine ⟨?_, ?_, ?_⟩
  · rw [hm, (ks rfl).1]
  · rw [hf, (ks rfl).2]
  · intro hl
    exact lt_of_lt_of_le (lt_of_lt_of_le hl fr.2.2.1) fr2.2.2.1

/-- Witness for C12: on a fresh store `Male` and `m` set `isMale` only, `FEMALE` sets
`isFemale` only, and `unknown` leaves both flags of the new record false. -/
theorem sampleAdd_sex_tokens_witness :
    ((recordOr (sampleAdd sampleInit "A" none none none none (some "Male")).2
        (sampleAdd sampleInit "A" none none none none (some "Male")).1).isMale =
      ((recordOr sampleInit (sampleAdd sampleInit "A" none none none none (some "Male")).1).isMale
        || decide (isMaleToken "Male"))) ∧
    (getSample (sampleAdd sampleInit "A" none none none none (some "Male")).2 0).toOption.map
      (fun r => (r.isMale, r.isFemale)) = some (true, false) ∧
    (getSample (sampleAdd sampleInit "A" none none none none (some "m")).2 0).toOption.map
      (fun r => (r.isMale, r.isFemale)) = some (true, false) ∧
    (getSample (sampleAdd sampleInit "A" none none none none (some "FEMALE")).2 0).toOption.map
      (fun r => (r.isMale, r.isFemale)) = some (false, true) ∧
    (getSample (sampleAdd sampleInit "A" none none none none (some "unknown")).2 0).toOption.map
      (fun r => (r.isMale, r.isFemale)) = some (false, false) :=
  ⟨(sampleAdd_sex_tokens sampleInit "A" none none none none "Male").1,
    by decide, by decide, by decide, by decide⟩

/-! ## Failure and the empty request of `pbwtSelectSamples` -/

/-- C13 (failure and empty request of `pbwtSelectSamples`): on a source without a column
mapping the call dies whatever the request list, and on a source with a column mapping
and an empty request list it returns the source itself, whatever state the source is
in (the engine, which dies on a source without storage, is not called). -/
theorem pbwtSelectSamples_guard (p : PBWT) (req : List Nat) :
    (p.samples = none →
      pbwtSelectSamples (some p) req = .error Die.selectSamplesWithoutSampleNames) ∧
    (∀ os, p.samples = some os → pbwtSelectSamples (some p) [] = .ok p) := by
  refine ⟨?_, ?_⟩
  · intro h
    simp [pbwtSelectSamples, h]
  · intro os h
    simp [pbwtSelectSamples, h]

/-- Witness for C13: a source with a mapping and no storage is returned as it is on the
empty request, where `pbwtSubSample` would die; the 3-column source stripped of its
mapping dies on any request. -/
theorem pbwtSelectSamples_guard_witness :
    pbwtSubSample (some exampleNoStorage) [] = .error Die.subSampleWithoutValidPbwt ∧
    pbwtSelectSamples (some exampleNoStorage) [] = .ok exampleNoStorage ∧
    pbwtSelectSamples (some { exampleSource with samples := none }) [5, 6] =
      .error Die.selectSamplesWithoutSampleNames :=
  ⟨by decide, (pbwtSelectSamples_guard exampleNoStorage []).2 [3] rfl,
    (pbwtSelectSamples_guard { exampleSource with samples := none } [5, 6]).1 rfl⟩

/-! ## Metadata and ploidy across `pbwtSubSample` -/

/-- C15 (consuming transfer of metadata): on a valid source and an in-range selection the
returned matrix has the chromosome label and the sites array the source had, the source
as handed to `pbwtDestroy` has neither, the flags `isX` and `isY` are the source's, the
result has `len(select)` columns and the source's `N` sites, and it has no missing or
dosage track. -/
theorem pbwtSubSample_metadata (pOld : PBWT) (select : List Nat)
    (hv : pOld.valid) (_ : selectInRange select pOld.M) :
    ∃ pNew pLeft, pbwtSubSampleCore (some pOld) select = .ok (pNew, pLeft) ∧
      pbwtSubSample (some pOld) select = .ok pNew ∧
      pNew.chrom = pOld.chrom ∧ pNew.sites = pOld.sites ∧
      pLeft.chrom = none ∧ pLeft.sites = none ∧
      pNew.isX = pOld.isX ∧ pNew.isY = pOld.isY ∧
      pNew.M = select.length ∧ pNew.N = pOld.N ∧
      pNew.zMissing = none ∧ pNew.zDosage = none := by
  obtain ⟨⟨z, hz, hzN, _⟩, _, _⟩ := hv
  exact ⟨_, _, pbwtSubSampleCore_ok pOld select z hz hzN, pbwtSubSample_ok pOld select z hz hzN,
    rfl, rfl, rfl, rfl, rfl, rfl, rfl, rfl, rfl, rfl⟩

/-- Witness for C15: columns 0 and 2 of the example source, which is on chromosome 20 and
has two sites. -/
theorem pbwtSubSample_metadata_witness :
    exampleSource.valid ∧ selectInRange [0, 2] exampleSource.M ∧
    exampleSource.chrom = some "20" ∧
    ∃ pNew pLeft, pbwtSubSampleCore (some exampleSource) [0, 2] = .ok (pNew, pLeft) ∧
      pbwtSubSample (some exampleSource) [0, 2] = .ok pNew ∧
      pNew.chrom = exampleSource.chrom ∧ pNew.sites = exampleSource.sites ∧
      pLeft.chrom = none ∧ pLeft.sites = none ∧
      pNew.isX = exampleSource.isX ∧ pNew.isY = exampleSource.isY ∧
      pNew.M = [0, 2].length ∧ pNew.N = exampleSource.N ∧
      pNew.zMissing = none ∧ pNew.zDosage = none :=
  ⟨by decide, by decide, rfl,
    pbwtSubSample_metadata exampleSource [0, 2] (by decide) (by decide)⟩

/-- C19 (ploidy across extraction): on a valid source and an in-range selection, with the
same store, `samplePloidy` of column `j` of the result is `samplePloidy` of column
`select[j]` of the source, also where that dies. -/
theorem samplePloidy_preserved (st : SampleStore) (pOld : PBWT) (select : List Nat)
    (hv : pOld.valid) (_ : selectInRange select pOld.M) :
    ∃ r, pbwtSubSample (some pOld) select = .ok r ∧
      ∀ j, j < select.length → samplePloidy st r j = samplePloidy st pOld (arr select j) := by
  obtain ⟨⟨z, hz, hzN, _⟩, _, hm⟩ := hv
  refine ⟨_, pbwtSubSample_ok pOld select z hz hzN, ?_⟩
  intro j hj
  cases hos : pOld.samples with
  | none => simp [samplePloidy, subSampleSamples, hos]
  | some os =>
    have hmap : subSampleSamples pOld select.length select =
        some ((List.range select.length).map (fun j => arr os (arr select j))) := by
      simp only [subSampleSamples, hos]
      rw [foldl_arraySet_range]
    have harr : arr ((List.range select.length).map (fun j => arr os (arr select j))) j =
        arr os (arr select j) := by
      simp [arr, List.getElem?_range hj]
    simp only [samplePloidy, sample, hmap, hos, Option.getD_some, harr]

/-- Witness for C19: the column of the Y-chromosome example taken twice, with the store
whose sample 0 has no sex: ploidy 0 before and after. -/
theorem samplePloidy_preserved_witness :
    exampleY.valid ∧ selectInRange [0, 0] exampleY.M ∧
    samplePloidy exampleStoreNoSex exampleY 0 = .ok 0 ∧
    ∃ r, pbwtSubSample (some exampleY) [0, 0] = .ok r ∧
      ∀ j, j < [0, 0].length →
        samplePloidy exampleStoreNoSex r j =
          samplePloidy exampleStoreNoSex exampleY (arr [0, 0] j) :=
  ⟨by decide, by decide, by decide,
    samplePloidy_preserved exampleStoreNoSex exampleY [0, 0] (by decide) (by decide)⟩

/-! ## The calls of the cursor functions made by the site loop -/

theorem subSampleAt_uNew_count (pOld : PBWT) (select : List Nat) (i : Nat) :
    (subSampleAt pOld select i).uNew.n = i ∧ (subSampleAt pOld select i).uNew.z.length = i := by
  induction i with
  | zero => exact ⟨rfl, rfl⟩
  | succ i ih =>
    rw [subSampleAt_succ]
    refine ⟨?_, ?_⟩
    · show (subSampleAt pOld select i).uNew.n + 1 = i + 1
      rw [ih.1]
    · show ((subSampleAt pOld select i).uNew.z ++ [_]).length = i + 1
      rw [List.length_append, ih.2]
      rfl

/-- The source cursor in pass `i` stands at site `i` of the `N` stored sites. -/
theorem subSampleAt_uOld_position (pOld : PBWT) (select : List Nat) (z : List (List Nat))
    (hz : pOld.yz = some z) (hzN : z.length = pOld.N) (i : Nat) :
    (subSampleAt pOld select i).uOld.n = i ∧
    (subSampleAt pOld select i).uOld.z.length = pOld.N := by
  rw [subSampleAt_uOld, (cursorAt_z_n pOld i).1, (cursorAt_z_n pOld i).2]
  exact ⟨rfl, by rw [hz]; exact hzN⟩

/-- The read of a pass made at a site returns the source cursor of the next pass. -/
theorem forwardsRead_at (pOld : PBWT) (select : List Nat) (i : Nat)
    (h : (subSampleAt pOld select i).uOld.n < (subSampleAt pOld select i).uOld.z.length) :
    pbwtCursorForwardsRead (subSampleAt pOld select i).uOld =
      .ok (subSampleAt pOld select (i + 1)).uOld := by
  rw [subSampleAt_succ]
  simp only [pbwtCursorForwardsRead, if_pos h]
  rfl

/-- The error of the cursor contract can be reached, on a matrix that is not valid: with
3 sites announced and 2 stored, the read of pass 2 is made beyond the last stored site and
`pbwtSubSample` fails. -/
theorem pbwtSubSample_short_storage :
    ¬ exampleShortStorage.valid ∧
    (subSampleAt exampleShortStorage [0, 2] 2).uOld.n = 2 ∧
    (subSampleAt exampleShortStorage [0, 2] 2).uOld.z.length = 2 ∧
    pbwtSubSample (some exampleShortStorage) [0, 2] = .error Die.advancePastLastSite := by
  decide

/-- C16 (no advance past the last site), counterexample: on the 2-site example source
with the selection 0, 2 the loop reaches pass 1, and the call of `pbwtCursorForwardsRead`
in that pass finds the source cursor at site 1 of 2, the last site: no next site remains
to be read. -/
theorem subSample_last_call_at_last_site :
    exampleSource.valid ∧ 1 ≤ exampleSource.N ∧ selectInRange [0, 2] exampleSource.M ∧
    1 < exampleSource.N ∧
    subSampleLoop exampleSource.M 2 [0, 2] 1
        (subSampleInit exampleSource (pbwtCreate 2 exampleSource.N)) =
      .ok (subSampleAt exampleSource [0, 2] 1) ∧
    (subSampleAt exampleSource [0, 2] 1).uOld.n = 1 ∧
    (subSampleAt exampleSource [0, 2] 1).uOld.z.length = 2 ∧
    ¬ nextSiteRemains (subSampleAt exampleSource [0, 2] 1).uOld := by
  decide

/-- C16 as amended: on a valid source with `N ≥ 1` sites and an in-range selection, the
loop reaches each pass `i < N`, and in it the call of `pbwtCursorForwardsRead` is made with
the source cursor at site `i` of the `N` stored sites, so it returns (the cursor of the
next pass) and is not the error; in every pass but the last a next site remains, in the
last pass the cursor is at the last site (`n + 1` is the number of sites) and none
remains.  The loop completes its `N` passes; only a further call, with the cursor beyond
the last site, would be the error.  The loop makes `N` calls of
`pbwtCursorWriteForwards`, and `pbwtSubSample` returns a matrix with `N` stored sites. -/
theorem subSample_cursor_calls (pOld : PBWT) (select : List Nat)
    (hv : pOld.valid) (_ : selectInRange select pOld.M) (hN : 1 ≤ pOld.N) :
    (∀ i, i < pOld.N →
      subSampleLoop pOld.M select.length select i
          (subSampleInit pOld (pbwtCreate select.length pOld.N)) =
        .ok (subSampleAt pOld select i) ∧
      (subSampleAt pOld select i).uOld.n = i ∧
      (subSampleAt pOld select i).uOld.z.length = pOld.N ∧
      pbwtCursorForwardsRead (subSampleAt pOld select i).uOld =
        .ok (subSampleAt pOld select (i + 1)).uOld) ∧
    (∀ i, i + 1 < pOld.N → nextSiteRemains (subSampleAt pOld select i).uOld) ∧
    (subSampleAt pOld select (pOld.N - 1)).uOld.n + 1 =
      (subSampleAt pOld select (pOld.N - 1)).uOld.z.length ∧
    ¬ nextSiteRemains (subSampleAt pOld select (pOld.N - 1)).uOld ∧
    subSampleLoop pOld.M select.length select pOld.N
        (subSampleInit pOld (pbwtCreate select.length pOld.N)) =
      .ok (subSampleAt pOld select pOld.N) ∧
    pbwtCursorForwardsRead (subSampleAt pOld select pOld.N).uOld =
      .error Die.advancePastLastSite ∧
    (subSampleAt pOld select pOld.N).uNew.n = pOld.N ∧
    ∃ r z, pbwtSubSample (some pOld) select = .ok r ∧ r.yz = some z ∧ z.length = pOld.N := by
  obtain ⟨⟨z, hz, hzN, _⟩, _, _⟩ := hv
  have hu := subSampleAt_uOld_position pOld select z hz hzN
  refine ⟨?_, ?_, ?_, ?_, subSampleLoop_at pOld select z hz hzN pOld.N (le_refl _), ?_,
    (subSampleAt_uNew_count pOld select pOld.N).1, ?_⟩
  · intro i hi
    refine ⟨subSampleLoop_at pOld select z hz hzN i (le_of_lt hi), (hu i).1, (hu i).2, ?_⟩
    apply forwardsRead_at
    rw [(hu i).1, (hu i).2]
    exact hi
  · intro i hi
    unfold nextSiteRemains
    rw [(hu i).1, (hu i).2]
    exact hi
  · rw [(hu _).1, (hu _).2]
    omega
  · unfold nextSiteRemains
    rw [(hu _).1, (hu _).2]
    omega
  · unfold pbwtCursorForwardsRead
    rw [(hu _).1, (hu _).2, if_neg (lt_irrefl _)]
  · obtain ⟨r, hr, _, _, hryz, _, _, _⟩ := pbwtSubSample_fields pOld select z hz hzN
    exact ⟨r, _, hr, hryz, (subSampleAt_uNew_count pOld select pOld.N).2⟩

/-- Witness for C16 as amended: columns 0 and 2 of the 2-site example source. -/
theorem subSample_cursor_calls_witness :
    exampleSource.valid ∧ selectInRange [0, 2] exampleSource.M ∧ 1 ≤ exampleSource.N ∧
    ((∀ i, i < exampleSource.N →
        subSampleLoop exampleSource.M ([0, 2] : List Nat).length [0, 2] i
            (subSampleInit exampleSource
              (pbwtCreate ([0, 2] : List Nat).length exampleSource.N)) =
          .ok (subSampleAt exampleSource [0, 2] i) ∧
        (subSampleAt exampleSource [0, 2] i).uOld.n = i ∧
        (subSampleAt exampleSource [0, 2] i).uOld.z.length = exampleSource.N ∧
        pbwtCursorForwardsRead (subSampleAt exampleSource [0, 2] i).uOld =
          .ok (subSampleAt exampleSource [0, 2] (i + 1)).uOld) ∧
      (∀ i, i + 1 < exampleSource.N →
        nextSiteRemains (subSampleAt exampleSource [0, 2] i).uOld) ∧
      (subSampleAt exampleSource [0, 2] (exampleSource.N - 1)).uOld.n + 1 =
        (subSampleAt exampleSource [0, 2] (exampleSource.N - 1)).uOld.z.length ∧
      ¬ nextSiteRemains (subSampleAt exampleSource [0, 2] (exampleSource.N - 1)).uOld ∧
      subSampleLoop exampleSource.M ([0, 2] : List Nat).length [0, 2] exampleSource.N
          (subSampleInit exampleSource
            (pbwtCreate ([0, 2] : List Nat).length exampleSource.N)) =
        .ok (subSampleAt exampleSource [0, 2] exampleSource.N) ∧
      pbwtCursorForwardsRead (subSampleAt exampleSource [0, 2] exampleSource.N).uOld =
        .error Die.advancePastLastSite ∧
      (subSampleAt exampleSource [0, 2] exampleSource.N).uNew.n = exampleSource.N ∧
      ∃ r z, pbwtSubSample (some exampleSource) [0, 2] = .ok r ∧ r.yz = some z ∧
        z.length = exampleSource.N) :=
  ⟨by decide, by decide, by decide,
    subSample_cursor_calls exampleSource [0, 2] (by decide) (by decide) (by decide)⟩

/-! ## The length of the selections handed to the engine -/

theorem intervalSelect_eq (start Mnew : Int) :
    intervalSelect start Mnew =
      (List.range Mnew.toNat).map (fun (i : Nat) => intAdd start (i : Int)) := by
  unfold intervalSelect
  rw [foldl_arraySet_range]

/-- A requested identity that owns a column of the source contributes a column. -/
theorem identitySelectionSpec_pos (os req : List Nat) (id : Nat) (hr : id ∈ req)
    (ho : id ∈ os) : 0 < (identitySelectionSpec os req).length := by
  obtain ⟨i, hi, hget⟩ := List.getElem_of_mem hr
  have hc : 0 < columnCount os id := List.count_pos_iff.2 ho
  apply List.length_pos_of_mem
    (a := firstColumn os id + columnCount os id * (req.take i).count id)
  unfold identitySelectionSpec
  rw [List.mem_flatten]
  refine ⟨List.range' (firstColumn os id + columnCount os id * (req.take i).count id)
    (columnCount os id), ?_, ?_⟩
  · rw [List.mem_map]
    refine ⟨i, List.mem_range.2 hi, ?_⟩
    have : arr req i = id := by rw [arr_eq_getElem req i hi, hget]
    simp only [this]
  · rw [List.mem_range'_1]
    omega

/-- C20 (non-empty selection), counterexample: on the 4-column source whose columns belong
to the samples 7 and 9, the non-empty request list naming only sample 5 makes
`pbwtSelectSamples` call `pbwtSubSample` with the empty selection; the result has no
column. -/
theorem pbwtSelectSamples_empty_selection :
    exampleDiploid.valid ∧ exampleDiploid.samples = some [7, 7, 9, 9] ∧
    ([5] : List Nat) ≠ [] ∧
    identitySelection exampleDiploid.M [7, 7, 9, 9] [5] = [] ∧
    pbwtSelectSamples (some exampleDiploid) [5] = pbwtSubSample (some exampleDiploid) [] ∧
    (pbwtSelectSamples (some exampleDiploid) [5]).toOption.map PBWT.M = some 0 := by
  decide

/-- C20 as amended: on a valid source, (1) when `pbwtSubSampleInterval` calls
`pbwtSubSample` the selection has `Mnew` entries and `Mnew > 0`; when `start + Mnew` fits an
`int` the selection is in range; and when the selection is in range the call returns a
matrix of `Mnew > 0` columns; (2) when `pbwtSelectSamples` is given a request list that
names at least one identity owning a column of the source, it calls `pbwtSubSample` with a
non-empty selection, and when that selection is in range the call returns a matrix with as
many columns as the selection has entries, more than 0. -/
theorem builders_nonempty_selection (p : PBWT) (hv : p.valid) :
    (∀ start Mnew sel, intervalSelection start Mnew p.M = .ok sel →
      0 < Mnew ∧ (sel.length : Int) = Mnew ∧ 0 < sel.length ∧
      pbwtSubSampleInterval p start Mnew =
        pbwtSubSample (some p) (sel.map (intIndex p.M)) ∧
      (sel.map (intIndex p.M)).length = sel.length ∧
      (start + Mnew < 2147483648 → selectInRange (sel.map (intIndex p.M)) p.M) ∧
      (selectInRange (sel.map (intIndex p.M)) p.M →
        ∃ r, pbwtSubSample (some p) (sel.map (intIndex p.M)) = .ok r ∧
          (r.M : Int) = Mnew ∧ r.M = sel.length ∧ 0 < r.M)) ∧
    (∀ os req, p.samples = some os → (∃ id ∈ req, id ∈ os) →
      0 < (identitySelection p.M os req).length ∧
      pbwtSelectSamples (some p) req = pbwtSubSample (some p) (identitySelection p.M os req) ∧
      (selectInRange (identitySelection p.M os req) p.M →
        ∃ r, pbwtSubSample (some p) (identitySelection p.M os req) = .ok r ∧
          r.M = (identitySelection p.M os req).length ∧ 0 < r.M)) := by
  obtain ⟨⟨z, hz, hzN, _⟩, _, hm⟩ := hv
  refine ⟨?_, ?_⟩
  · intro start Mnew sel hsel
    unfold intervalSelection at hsel
    split at hsel
    · cases hsel
    · rename_i hg
      have hsel2 : intervalSelect start Mnew = sel := by
        injection hsel
      have hlen : sel.length = Mnew.toNat := by
        rw [← hsel2, intervalSelect_eq]
        simp
      have hM : 0 < Mnew := by omega
      have hlenI : (sel.length : Int) = Mnew := by
        rw [hlen]
        omega
      have hpos : 0 < sel.length := by
        rw [hlen]
        omega
      refine ⟨hM, hlenI, hpos, ?_, List.length_map _ _, ?_, ?_⟩
      · have hi : intervalSelection start Mnew p.M = .ok sel := by
          unfold intervalSelection
          rw [if_neg hg, hsel2]
        simp only [pbwtSubSampleInterval, hi]
      · intro hfit v hv
        rw [← hsel2, intervalSelect_eq, List.map_map] at hv
        obtain ⟨i, hi, rfl⟩ := List.mem_map.1 hv
        have hi2 : i < Mnew.toNat := List.mem_range.1 hi
        have hw : intAdd start Mnew = start + Mnew := by
          unfold intAdd wrapInt; omega
        rw [hw] at hg
        have hwi : intAdd start (i : Int) = start + (i : Int) := by
          unfold intAdd wrapInt; omega
        show intIndex p.M (intAdd start (i : Int)) < p.M
        rw [hwi]
        unfold intIndex
        rw [if_neg (by omega)]
        omega
      · intro _
        obtain ⟨r, hr, _, hrM, _⟩ :=
          pbwtSubSample_fields p (sel.map (intIndex p.M)) z hz hzN
        rw [List.length_map] at hrM
        exact ⟨r, hr, by rw [hrM]; exact hlenI, hrM, by rw [hrM]; exact hpos⟩
  · intro os req hos hex
    obtain ⟨id, hr, ho⟩ := hex
    have hlen : os.length = p.M := hm os hos
    have hpos : 0 < (identitySelection p.M os req).length := by
      rw [← hlen, identitySelection_eq]
      exact identitySelectionSpec_pos os req id hr ho
    have hne : req.length ≠ 0 := by
      intro h
      rw [List.length_eq_zero.1 h] at hr
      cases hr
    refine ⟨hpos, ?_, ?_⟩
    · simp only [pbwtSelectSamples, hos, if_neg hne]
    · intro _
      obtain ⟨r, hr2, _, hrM, _⟩ :=
        pbwtSubSample_fields p (identitySelection p.M os req) z hz hzN
      exact ⟨r, hr2, hrM, by rw [hrM]; exact hpos⟩

/-- Witness for C20 as amended: the interval of 2 columns from column 1 and the request
for the samples 5 and 9 on the 4-column example, whose columns belong to the samples 7
and 9. -/
theorem builders_nonempty_selection_witness :
    exampleDiploid.valid ∧
    intervalSelection 1 2 exampleDiploid.M = .ok [1, 2] ∧
    (∃ r, pbwtSubSample (some exampleDiploid)
        (([1, 2] : List Int).map (intIndex exampleDiploid.M)) = .ok r ∧
      (r.M : Int) = 2 ∧ r.M = ([1, 2] : List Int).length ∧ 0 < r.M) ∧
    (∃ r, pbwtSubSample (some exampleDiploid)
        (identitySelection exampleDiploid.M [7, 7, 9, 9] [5, 9]) = .ok r ∧
      r.M = (identitySelection exampleDiploid.M [7, 7, 9, 9] [5, 9]).length ∧ 0 < r.M) :=
  ⟨by decide, by decide,
    ((builders_nonempty_selection exampleDiploid (by decide)).1 1 2 [1, 2]
      (by decide)).2.2.2.2.2.2 (by decide),
    ((builders_nonempty_selection exampleDiploid (by decide)).2 [7, 7, 9, 9] [5, 9] rfl
      ⟨9, by decide, by decide⟩).2.2 (by decide)⟩

/-! ## Contiguous runs and distinct requests -/

theorem indexOf_le_of_getElem? (os : List Nat) (id : Nat) :
    ∀ c, os[c]? = some id → os.indexOf id ≤ c := by
  induction os with
  | nil => intro c h; simp at h
  | cons h t ih =>
    intro c hc
    by_cases hh : h = id
    · rw [List.indexOf_cons_eq _ hh]
      omega
    · rw [List.indexOf_cons_ne _ hh]
      cases c with
      | zero =>
        simp only [List.getElem?_cons_zero, Option.some.injEq] at hc
        exact absurd hc hh
      | succ c =>
        simp only [List.getElem?_cons_succ] at hc
        have := ih c hc
        omega

/-- In a mapping with contiguous runs the run of an identity is the block of `count`
copies of it that starts at its first column. -/
theorem contiguousRuns_block (os : List Nat) (hc : contiguousRuns os) (id : Nat)
    (hid : id ∈ os) :
    (os.drop (firstColumn os id)).take (columnCount os id) =
      List.replicate (columnCount os id) id := by
  have hpos : 0 < columnCount os id := List.count_pos_iff.2 hid
  have hlast := hc id hid (columnCount os id - 1) (by omega)
  have hlt : firstColumn os id + (columnCount os id - 1) < os.length := by
    by_contra hn
    rw [List.getElem?_eq_none (by omega)] at hlast
    cases hlast
  rw [List.eq_replicate_iff]
  refine ⟨?_, ?_⟩
  · rw [List.length_take, List.length_drop]
    omega
  · intro b hb
    obtain ⟨k, hk, hget⟩ := List.mem_take_iff_getElem.1 hb
    have hk1 : k < columnCount os id := by
      have := Nat.lt_of_lt_of_le hk (Nat.min_le_left _ _)
      exact this
    have h2 := hc id hid k hk1
    have h3 : (os.drop (firstColumn os id))[k]? = some b := by
      rw [List.getElem?_eq_getElem (Nat.lt_of_lt_of_le hk (Nat.min_le_right _ _)), hget]
    rw [List.getElem?_drop, h2] at h3
    exact (Option.some.inj h3).symm

/-- In a mapping with contiguous runs the columns of an identity are exactly the `count`
columns from its first column on. -/
theorem contiguousRuns_complete (os : List Nat) (hc : contiguousRuns os) (id : Nat)
    (hid : id ∈ os) (c : Nat) :
    os[c]? = some id ↔ c ∈ List.range' (firstColumn os id) (columnCount os id) := by
  rw [List.mem_range'_1]
  constructor
  · intro h
    refine ⟨indexOf_le_of_getElem? os id c h, ?_⟩
    by_contra hn
    have hsplit : os = os.take (firstColumn os id) ++
        ((os.drop (firstColumn os id)).take (columnCount os id) ++
          os.drop (firstColumn os id + columnCount os id)) := by
      rw [← List.drop_drop, List.take_append_drop, List.take_append_drop]
    have hcount : columnCount os id = List.count id os := rfl
    have hcnt := congrArg (List.count id) hsplit
    rw [List.count_append, List.count_append, contiguousRuns_block os hc id hid,
      List.count_replicate_self, ← hcount] at hcnt
    have hz : List.count id (os.drop (firstColumn os id + columnCount os id)) = 0 := by
      omega
    have hnot : id ∉ os.drop (firstColumn os id + columnCount os id) := List.count_eq_zero.1 hz
    apply hnot
    have hget : (os.drop (firstColumn os id + columnCount os id))[
        c - (firstColumn os id + columnCount os id)]? = some id := by
      rw [List.getElem?_drop]
      have : firstColumn os id + columnCount os id +
          (c - (firstColumn os id + columnCount os id)) = c := by omega
      rw [this]
      exact h
    exact List.getElem?_mem hget
  · intro ⟨h1, h2⟩
    have := hc id hid (c - firstColumn os id) (by omega)
    have he : firstColumn os id + (c - firstColumn os id) = c := by omega
    rw [he] at this
    exact this

theorem not_mem_take_of_nodup (req : List Nat) (hd : req.Nodup) (i : Nat) (hi : i < req.length) :
    (req.take i).count req[i] = 0 := by
  rw [List.count_eq_zero]
  intro hmem
  obtain ⟨j, hj, hget⟩ := List.mem_take_iff_getElem.1 hmem
  have hj1 : j < i := Nat.lt_of_lt_of_le hj (Nat.min_le_left _ _)
  have hj2 : j < req.length := by omega
  have := (hd.getElem_inj_iff).1 hget
  omega

/-- With no identity requested twice every request starts at the first column of its
identity. -/
theorem identitySelectionSpec_nodup (os req : List Nat) (hd : req.Nodup) :
    identitySelectionSpec os req =
      (req.map (fun id => List.range' (firstColumn os id) (columnCount os id))).flatten := by
  unfold identitySelectionSpec
  congr 1
  rw [← map_range_getD (fun id => List.range' (firstColumn os id) (columnCount os id)) req]
  apply List.map_congr_left
  intro i hi
  have hi2 : i < req.length := List.mem_range.1 hi
  have h0 := not_mem_take_of_nodup req hd i hi2
  have ha : arr req i = req[i] := arr_eq_getElem req i hi2
  have hg : req.getD i 0 = req[i] := by
    simp [List.getElem?_eq_getElem hi2]
  simp only [ha, hg, h0, Nat.mul_zero, Nat.add_zero]

theorem runs_mem (os : List Nat) (hc : contiguousRuns os) (id c : Nat)
    (h : c ∈ List.range' (firstColumn os id) (columnCount os id)) : os[c]? = some id := by
  have hid : id ∈ os := by
    by_contra hn
    have h0 : columnCount os id = 0 := List.count_eq_zero.2 hn
    rw [h0] at h
    simp at h
  exact (contiguousRuns_complete os hc id hid c).2 h

theorem runs_nodup (os req : List Nat) (hc : contiguousRuns os) (hd : req.Nodup) :
    ((req.map (fun id => List.range' (firstColumn os id) (columnCount os id))).flatten).Nodup := by
  rw [List.nodup_flatten]
  refine ⟨?_, ?_⟩
  · intro l hl
    obtain ⟨id, _, rfl⟩ := List.mem_map.1 hl
    exact List.nodup_range' _ _
  · rw [List.pairwise_map]
    refine List.Pairwise.imp ?_ hd
    intro a b hab c hca hcb
    have h1 := runs_mem os hc a c hca
    have h2 := runs_mem os hc b c hcb
    rw [h1] at h2
    exact hab (Option.some.inj h2)

theorem runs_in_range (os req : List Nat) (hc : contiguousRuns os) :
    selectInRange
      ((req.map (fun id => List.range' (firstColumn os id) (columnCount os id))).flatten)
      os.length := by
  intro v hv
  obtain ⟨l, hl, hvl⟩ := List.mem_flatten.1 hv
  obtain ⟨id, _, rfl⟩ := List.mem_map.1 hl
  have h := runs_mem os hc id v hvl
  by_contra hn
  rw [List.getElem?_eq_none (by omega)] at h
  cases h

theorem runs_samples (os req : List Nat) (hc : contiguousRuns os) :
    ((req.map (fun id => List.range' (firstColumn os id) (columnCount os id))).flatten).map
        (fun c => arr os c) =
      (req.map (fun id => List.replicate (columnCount os id) id)).flatten := by
  rw [List.map_flatten, List.map_map]
  congr 1
  apply List.map_congr_left
  intro id _
  show (List.range' (firstColumn os id) (columnCount os id)).map (fun c => arr os c) = _
  rw [List.eq_replicate_iff]
  refine ⟨by simp, ?_⟩
  intro b hb
  obtain ⟨c, hc2, rfl⟩ := List.mem_map.1 hb
  have h := runs_mem os hc id c hc2
  simp [arr, h]

/-- C18 (the requested individuals' own columns): on a valid source whose mapping `os` has
contiguous runs and a non-empty request list without repeats, the selection of
`pbwtSelectSamples` is, in request order, the run of each requested identity from its
first column, `count` columns long; these are all the columns of the identity; every
selected index is a column of the source, none is selected twice, and the call returns a
matrix whose mapping lists each requested identity `count` times, in request order. -/
theorem pbwtSelectSamples_whole_runs (p : PBWT) (os req : List Nat) (hv : p.valid)
    (hm : p.samples = some os) (hc : contiguousRuns os) (hne : req ≠ [])
    (hd : req.Nodup) :
    identitySelection p.M os req =
      (req.map (fun id => List.range' (firstColumn os id) (columnCount os id))).flatten ∧
    (∀ id ∈ os, ∀ c,
      os[c]? = some id ↔ c ∈ List.range' (firstColumn os id) (columnCount os id)) ∧
    selectInRange (identitySelection p.M os req) p.M ∧
    (identitySelection p.M os req).Nodup ∧
    ∃ r, pbwtSelectSamples (some p) req = .ok r ∧
      r.samples = some ((req.map (fun id => List.replicate (columnCount os id) id)).flatten) := by
  have hlen : os.length = p.M := hv.2.2 os hm
  obtain ⟨⟨z, hz, hzN, _⟩, _, _⟩ := hv
  have hsel : identitySelection p.M os req =
      (req.map (fun id => List.range' (firstColumn os id) (columnCount os id))).flatten := by
    rw [← hlen, identitySelection_eq, identitySelectionSpec_nodup os req hd]
  have hl : req.length ≠ 0 := by
    intro h; exact hne (List.length_eq_zero.1 h)
  refine ⟨hsel, fun id hid c => contiguousRuns_complete os hc id hid c, ?_, ?_, ?_⟩
  · rw [hsel, ← hlen]
    exact runs_in_range os req hc
  · rw [hsel]
    exact runs_nodup os req hc hd
  · obtain ⟨r, hr, _, _, _, _, _, hrs⟩ :=
      pbwtSubSample_fields p (identitySelection p.M os req) z hz hzN
    refine ⟨r, ?_, ?_⟩
    · simp only [pbwtSelectSamples, hm, if_neg hl]
      exact hr
    · rw [hrs]
      simp only [subSampleSamples, hm]
      rw [foldl_arraySet_range, ← runs_samples os req hc, ← hsel]
      congr 1
      exact map_range_getD (fun c => arr os c) (identitySelection p.M os req)

/-- Witness for C18: on the mapping 7 7 9 9 the requests 9, 7 select the columns 2 3 0 1
and give the mapping 9 9 7 7. -/
theorem pbwtSelectSamples_whole_runs_witness :
    exampleDiploid.valid ∧ exampleDiploid.samples = some [7, 7, 9, 9] ∧
    contiguousRuns [7, 7, 9, 9] ∧ ([9, 7] : List Nat) ≠ [] ∧ ([9, 7] : List Nat).Nodup ∧
    identitySelection exampleDiploid.M [7, 7, 9, 9] [9, 7] = [2, 3, 0, 1] ∧
    (∃ r, pbwtSelectSamples (some exampleDiploid) [9, 7] = .ok r ∧
      r.samples = some (([9, 7].map
        (fun id => List.replicate (columnCount [7, 7, 9, 9] id) id)).flatten)) :=
  ⟨by decide, rfl, by decide, by decide, by decide, by decide,
    (pbwtSelectSamples_whole_runs exampleDiploid [7, 7, 9, 9] [9, 7] (by decide) rfl
      (by decide) (by decide) (by decide)).2.2.2.2⟩

/-! ## Repeated indices in the built selections -/

/-- C14 (injectivity of built selections), counterexample: on the valid 3-column source
whose columns belong to the samples 7, 9, 7, the requests 7, 9 make `pbwtSelectSamples`
select 0 1 for sample 7 (two columns from its first) and 1 for sample 9: column 1 is
selected twice. -/
theorem pbwtSelectSamples_repeated_index :
    exampleSplit.valid ∧ exampleSplit.samples = some [7, 9, 7] ∧
    identitySelection exampleSplit.M [7, 9, 7] [7, 9] = [0, 1, 1] ∧
    pbwtSelectSamples (some exampleSplit) [7, 9] =
      pbwtSubSample (some exampleSplit) [0, 1, 1] ∧
    ¬ (identitySelection exampleSplit.M [7, 9, 7] [7, 9]).Nodup := by
  decide

/-- C14 as amended: the selection of `pbwtSubSampleInterval` holds no index twice on every
input that passes its guard (`Mnew` being an `int`), and the selection of
`pbwtSelectSamples` holds no index twice when the column mapping has contiguous runs and
the request list names no identity twice. -/
theorem builders_injective :
    (∀ start Mnew Mold sel, Mnew ≤ 2147483647 →
      intervalSelection start Mnew Mold = .ok sel → sel.Nodup) ∧
    (∀ os req, contiguousRuns os → req.Nodup →
      (identitySelection os.length os req).Nodup) := by
  refine ⟨?_, ?_⟩
  · intro start Mnew Mold sel hM hsel
    unfold intervalSelection at hsel
    split at hsel
    · cases hsel
    · have hsel2 : intervalSelect start Mnew = sel := by
        injection hsel
      rw [← hsel2, intervalSelect_eq]
      apply List.Nodup.map_on _ (List.nodup_range _)
      intro i hi j hj hij
      have hi2 : i < Mnew.toNat := List.mem_range.1 hi
      have hj2 : j < Mnew.toNat := List.mem_range.1 hj
      unfold intAdd wrapInt at hij
      omega
  · intro os req hc hd
    rw [identitySelection_eq, identitySelectionSpec_nodup os req hd]
    exact runs_nodup os req hc hd

/-- Witness for C14 as amended: the interval of 6 columns from column 0, and the
requests 9, 7 on the mapping 7 7 9 9. -/
theorem builders_injective_witness :
    intervalSelection 0 6 6 = .ok [0, 1, 2, 3, 4, 5] ∧
    ([0, 1, 2, 3, 4, 5] : List Int).Nodup ∧
    contiguousRuns [7, 7, 9, 9] ∧ ([9, 7] : List Nat).Nodup ∧
    (identitySelection [7, 7, 9, 9].length [7, 7, 9, 9] [9, 7]).Nodup :=
  ⟨by decide, builders_injective.1 0 6 6 [0, 1, 2, 3, 4, 5] (by decide) (by decide),
    by decide, by decide, builders_injective.2 [7, 7, 9, 9] [9, 7] (by decide) (by decide)⟩

/-! ## The sort order of the result and of the source -/

theorem partition_zero_map (a : List Nat) (A : Nat → Nat) :
    ((a.zip (a.map A)).filter (fun c => c.2 == 0)).map Prod.fst =
      a.filter (fun c => A c == 0) := by
  induction a with
  | nil => rfl
  | cons h t ih =>
    rw [List.map_cons, List.zip_cons_cons]
    by_cases hh : (A h == 0) = true
    · rw [List.filter_cons_of_pos (by exact hh), List.filter_cons_of_pos (by exact hh),
        List.map_cons, ih]
    · rw [List.filter_cons_of_neg (by exact hh), List.filter_cons_of_neg (by exact hh), ih]

theorem partition_nonzero_map (a : List Nat) (A : Nat → Nat) :
    ((a.zip (a.map A)).filter (fun c => !(c.2 == 0))).map Prod.fst =
      a.filter (fun c => !(A c == 0)) := by
  induction a with
  | nil => rfl
  | cons h t ih =>
    rw [List.map_cons, List.zip_cons_cons]
    by_cases hh : (!(A h == 0)) = true
    · rw [List.filter_cons_of_pos (by exact hh), List.filter_cons_of_pos (by exact hh),
        List.map_cons, ih]
    · rw [List.filter_cons_of_neg (by exact hh), List.filter_cons_of_neg (by exact hh), ih]

/-- The partition by allele, when the buffer is given by the allele of each column: the
columns with allele 0 in their order, then the others in their order. -/
theorem partitionByAllele_map (a : List Nat) (A : Nat → Nat) :
    partitionByAllele a (a.map A) =
      a.filter (fun c => A c == 0) ++ a.filter (fun c => !(A c == 0)) := by
  unfold partitionByAllele
  simp only []
  rw [partition_zero_map, partition_nonzero_map]

/-- The allele buffer of a cursor, column by column. -/
theorem cursor_y_by_column (u : PbwtCursor) (M : Nat) (h : cursorOK u M) :
    u.y = u.a.map (fun c => arr u.y (u.a.indexOf c)) := by
  obtain ⟨ha, hy⟩ := h
  have hl : u.a.length = M := by simpa using ha.length_eq
  have hnd : u.a.Nodup := (ha.nodup_iff).2 (List.nodup_range M)
  apply List.ext_getElem
  · simp [hl, hy]
  · intro r h1 h2
    have hr : r < u.a.length := by simpa using h2
    rw [List.getElem_map, List.indexOf_getElem hnd r hr, arr_eq_getElem u.y r h1]

theorem indexOf_map_of_inj (f : Nat → Nat) (a : Nat) :
    ∀ l : List Nat, (∀ b ∈ l, f b = f a → b = a) →
      (l.map f).indexOf (f a) = l.indexOf a := by
  intro l
  induction l with
  | nil => intro _; rfl
  | cons h t ih =>
    intro hinj
    by_cases hh : h = a
    · subst hh
      rw [List.map_cons, List.indexOf_cons_self, List.indexOf_cons_self]
    · have hf : f h ≠ f a := fun e => hh (hinj h (List.mem_cons_self _ _) e)
      rw [List.map_cons, List.indexOf_cons_ne _ hf, List.indexOf_cons_ne _ hh,
        ih (fun b hb e => hinj b (List.mem_cons_of_mem _ hb) e)]

/-- Dropping columns from a permutation keeps the order of those that stay. -/
theorem indexOf_filter_lt_iff (p : Nat → Bool) (c d : Nat) :
    ∀ l : List Nat, c ∈ l.filter p → d ∈ l.filter p →
      ((l.filter p).indexOf c < (l.filter p).indexOf d ↔ l.indexOf c < l.indexOf d) := by
  intro l
  induction l with
  | nil => intro hc; simp at hc
  | cons h t ih =>
    intro hc hd
    have hpc : p c = true := (List.mem_filter.1 hc).2
    have hpd : p d = true := (List.mem_filter.1 hd).2
    by_cases hph : p h = true
    · rw [List.filter_cons_of_pos hph] at hc hd ⊢
      by_cases h1 : h = c
      · by_cases h2 : h = d
        · rw [List.indexOf_cons_eq _ h1, List.indexOf_cons_eq _ h2, List.indexOf_cons_eq _ h1,
            List.indexOf_cons_eq _ h2]
        · rw [List.indexOf_cons_eq _ h1, List.indexOf_cons_ne _ h2, List.indexOf_cons_eq _ h1,
            List.indexOf_cons_ne _ h2]
          simp
      · by_cases h2 : h = d
        · rw [List.indexOf_cons_ne _ h1, List.indexOf_cons_eq _ h2, List.indexOf_cons_ne _ h1,
            List.indexOf_cons_eq _ h2]
          simp
        · have hc2 : c ∈ t.filter p := by
            cases List.mem_cons.1 hc with
            | inl e => exact absurd e.symm h1
            | inr m => exact m
          have hd2 : d ∈ t.filter p := by
            cases List.mem_cons.1 hd with
            | inl e => exact absurd e.symm h2
            | inr m => exact m
          rw [List.indexOf_cons_ne _ h1, List.indexOf_cons_ne _ h2, List.indexOf_cons_ne _ h1,
            List.indexOf_cons_ne _ h2]
          have := ih hc2 hd2
          simp only [Nat.succ_lt_succ_iff]
          exact this
    · rw [List.filter_cons_of_neg hph] at hc hd ⊢
      have h1 : h ≠ c := fun e => hph (e ▸ hpc)
      have h2 : h ≠ d := fun e => hph (e ▸ hpd)
      rw [List.indexOf_cons_ne _ h1, List.indexOf_cons_ne _ h2]
      have := ih hc hd
      simp only [Nat.succ_lt_succ_iff]
      exact this

/-- The columns of a strictly increasing in-range selection, picked out of `0 .. M-1` in
order, are the selection. -/
theorem filter_range_of_increasing (select : List Nat) (M : Nat)
    (hinc : strictlyIncreasing select) (hs : selectInRange select M) :
    (List.range M).filter (fun c => decide (c ∈ select)) = select := by
  apply List.eq_of_perm_of_sorted (r := fun c d => c < d)
  · rw [List.perm_ext_iff_of_nodup ((List.nodup_range M).filter _)
      (hinc.imp (fun h => Nat.ne_of_lt h))]
    intro a
    simp only [List.mem_filter, List.mem_range, decide_eq_true_eq]
    exact ⟨fun h => h.2, fun h => ⟨hs a h, h⟩⟩
  · exact (List.pairwise_lt_range M).filter _
  · exact hinc

theorem filter_filter_comm (p q : Nat → Bool) (l : List Nat) :
    (l.filter p).filter q = (l.filter q).filter p := by
  rw [List.filter_filter, List.filter_filter]
  apply List.filter_congr
  intro x _
  exact Bool.and_comm _ _

/-- One pass keeps the result's permutation equal to the source's permutation cut down to
the selected columns, each named by its place in the selection. -/
theorem restriction_step (la lb select : List Nat) (B X : Nat → Nat)
    (hX : ∀ j ∈ la, X j = B (arr select j))
    (ih : la.map (fun j => arr select j) = lb.filter (fun c => decide (c ∈ select))) :
    (partitionByAllele la (la.map X)).map (fun j => arr select j) =
      (partitionByAllele lb (lb.map B)).filter (fun c => decide (c ∈ select)) := by
  have h0 : la.filter (fun j => X j == 0) = la.filter ((fun c => B c == 0) ∘ fun j => arr select j) := by
    apply List.filter_congr
    intro j hj
    simp only [Function.comp, hX j hj]
  have h1 : la.filter (fun j => !(X j == 0)) =
      la.filter ((fun c => !(B c == 0)) ∘ fun j => arr select j) := by
    apply List.filter_congr
    intro j hj
    simp only [Function.comp, hX j hj]
  rw [partitionByAllele_map, partitionByAllele_map, List.map_append, List.filter_append, h0, h1,
    ← List.filter_map, ← List.filter_map, ih, filter_filter_comm, filter_filter_comm _ (fun c => !(B c == 0))]

/-- With a source that starts at the identity permutation and a strictly increasing
in-range selection, in every pass the result's permutation, read through the selection,
is the source's permutation cut down to the selected columns. -/
theorem subSampleAt_restriction (pOld : PBWT) (select : List Nat) (hv : pOld.valid)
    (hst : pOld.aFstart = none) (hinc : strictlyIncreasing select)
    (hs : selectInRange select pOld.M) :
    ∀ i, i ≤ pOld.N →
      (subSampleAt pOld select i).uNew.a.map (fun j => arr select j) =
        (subSampleAt pOld select i).uOld.a.filter (fun c => decide (c ∈ select)) := by
  have hv0 := hv
  obtain ⟨⟨z, hz, _, hzl⟩, ha, _⟩ := hv
  intro i
  induction i with
  | zero =>
    intro _
    have h1 : (subSampleAt pOld select 0).uNew.a = List.range select.length := rfl
    have h2 : (subSampleAt pOld select 0).uOld.a = List.range pOld.M := by
      show pOld.aFstart.getD (List.range pOld.M) = _
      rw [hst]
      rfl
    rw [h1, h2, filter_range_of_increasing select pOld.M hinc hs]
    have := map_range_getD (fun c => c) select
    simp only [List.map_id'] at this
    exact this
  | succ i ih =>
    intro hi
    have hi1 : i < pOld.N := by omega
    have hu := subSampleAt_uOld pOld select i
    have okO := (cursorAt_ok pOld z hz hzl ha i).1
    have okN := subSampleAt_uNew_ok pOld select i
    have hx := subSamplePass_x pOld select i _ hu okO (subSampleAt_buffers pOld select i).2
      (subSampleAt_buffers pOld select i).1 hi1 hs
    have hn := subSamplePass_uNew pOld.M select _ okN
    rw [hx] at hn
    have hy := cursor_y_by_column (subSampleAt pOld select i).uOld pOld.M (by rw [hu]; exact okO)
    have hnew : (subSampleAt pOld select (i + 1)).uNew.a =
        partitionByAllele (subSampleAt pOld select i).uNew.a
          ((subSampleAt pOld select i).uNew.a.map
            (fun j => arr (select.map (fun c => (alleleAt pOld i c).getD 0)) j)) := by
      rw [subSampleAt_succ, hn]
      rfl
    have hold : (subSampleAt pOld select (i + 1)).uOld.a =
        partitionByAllele (subSampleAt pOld select i).uOld.a
          ((subSampleAt pOld select i).uOld.a.map
            (fun c => arr (subSampleAt pOld select i).uOld.y
              ((subSampleAt pOld select i).uOld.a.indexOf c))) := by
      rw [← hy, subSampleAt_succ]
      rfl
    rw [hnew, hold]
    apply restriction_step _ _ _ _ _ _ (ih (by omega))
    intro j hj
    have hjl : j < select.length := List.mem_range.1 ((okN.1.mem_iff).1 hj)
    have hsj : arr select j < pOld.M := by
      rw [arr_eq_getElem select j hjl]; exact hs _ (List.getElem_mem _)
    have hal := alleleAt_eq pOld i (arr select j) hi1 hsj okO
    rw [← hu] at hal
    have h3 : arr (select.map (fun c => (alleleAt pOld i c).getD 0)) j =
        (alleleAt pOld i (arr select j)).getD 0 := by
      simp [arr, List.getElem?_eq_getElem hjl]
    rw [h3, hal]
    rfl

/-- C17 (sort order as a restriction), counterexample: the valid 2-column source that
starts at the stored permutation 1 0, with the strictly increasing selection 0, 1: in
pass 0 column 0 precedes column 1 in the result's permutation (the identity), while
`select[0]` does not precede `select[1]` in the source's permutation. -/
theorem subSample_order_with_stored_start :
    exampleStarted.valid ∧ strictlyIncreasing [0, 1] ∧ selectInRange [0, 1] exampleStarted.M ∧
    0 < exampleStarted.N ∧
    (subSampleAt exampleStarted [0, 1] 0).uNew.a = [0, 1] ∧
    (subSampleAt exampleStarted [0, 1] 0).uOld.a = [1, 0] ∧
    precedes (subSampleAt exampleStarted [0, 1] 0).uNew.a 0 1 ∧
    ¬ precedes (subSampleAt exampleStarted [0, 1] 0).uOld.a (arr [0, 1] 0) (arr [0, 1] 1) := by
  decide

/-- C17 as amended: for a valid source without a stored starting permutation (its cursor
starts at the identity), a strictly increasing in-range selection, every pass `i` of the
loop (and after it) and every two result columns `j` and `k`: `j` precedes `k` in the
result cursor's permutation exactly if `select[j]` precedes `select[k]` in the source
cursor's permutation. -/
theorem subSample_order_restriction (pOld : PBWT) (select : List Nat) (hv : pOld.valid)
    (hst : pOld.aFstart = none) (hinc : strictlyIncreasing select)
    (hs : selectInRange select pOld.M) (i j k : Nat) (hi : i ≤ pOld.N)
    (hj : j < select.length) (hk : k < select.length) :
    precedes (subSampleAt pOld select i).uNew.a j k ↔
      precedes (subSampleAt pOld select i).uOld.a (arr select j) (arr select k) := by
  have hinv := subSampleAt_restriction pOld select hv hst hinc hs i hi
  have okN := subSampleAt_uNew_ok pOld select i
  have hnd : select.Nodup := hinc.imp (fun h => Nat.ne_of_lt h)
  have hinj : ∀ a, a < select.length → ∀ b ∈ (subSampleAt pOld select i).uNew.a,
      arr select b = arr select a → b = a := by
    intro a ha b hb e
    have hbl : b < select.length := List.mem_range.1 ((okN.1.mem_iff).1 hb)
    rw [arr_eq_getElem select b hbl, arr_eq_getElem select a ha] at e
    exact (hnd.getElem_inj_iff).1 e
  have hmem : ∀ a, a < select.length →
      arr select a ∈ (subSampleAt pOld select i).uOld.a.filter (fun c => decide (c ∈ select)) := by
    intro a ha
    rw [← hinv]
    exact List.mem_map.2 ⟨a, (okN.1.mem_iff).2 (List.mem_range.2 ha), rfl⟩
  unfold precedes
  rw [← indexOf_filter_lt_iff (fun c => decide (c ∈ select)) (arr select j) (arr select k)
      (subSampleAt pOld select i).uOld.a (hmem j hj) (hmem k hk), ← hinv,
    indexOf_map_of_inj (fun j => arr select j) j _ (hinj j hj),
    indexOf_map_of_inj (fun j => arr select j) k _ (hinj k hk)]

/-- Witness for C17 as amended: columns 0 and 2 of the example source after its first
site, where the source's permutation is 0 2 1 and the result's is 0 1. -/
theorem subSample_order_restriction_witness :
    exampleSource.valid ∧ exampleSource.aFstart = none ∧ strictlyIncreasing [0, 2] ∧
    selectInRange [0, 2] exampleSource.M ∧
    (subSampleAt exampleSource [0, 2] 1).uOld.a = [0, 2, 1] ∧
    (subSampleAt exampleSource [0, 2] 1).uNew.a = [0, 1] ∧
    (precedes (subSampleAt exampleSource [0, 2] 1).uNew.a 0 1 ↔
      precedes (subSampleAt exampleSource [0, 2] 1).uOld.a (arr [0, 2] 0) (arr [0, 2] 1)) :=
  ⟨by decide, rfl, by decide, by decide, by decide, by decide,
    subSample_order_restriction exampleSource [0, 2] (by decide) rfl (by decide) (by decide)
      1 0 1 (by decide) (by decide) (by decide)⟩

end Pbwt
